import Mathlib

/-!
# CustomSearchEngine: a verification development

A shallow embedding of `src/CustomSearchEngine.cpp` (classes `Trie`,
`InvertedIndex` and `SearchEngine`) together with theorems about it.

Modelling conventions.

* `std::string` is a sequence of `char`: `List Char`.  String literals of the
  sample program are written `"...".toList`.
* `std::unordered_map<K, V>` is an association list `List (K × V)` whose
  iteration order is the order in which the keys were first inserted.  The
  operations used by the source are `lookup` (`find`) and `assign`
  (`m[k] = v`); `assign` never creates a second entry for a key.
* `std::unordered_set<int>` is a list of integers, `setInsert` adds an element
  only when it is absent.
* `int` document identifiers are `Int`; `int` counters are `Nat` (signed
  overflow is undefined behaviour in the source and is not modelled).
* `double` scores are kept generic: the scoring functions work over any type
  `F` with `0`, `+`, `*`, `/`, a cast from `Nat` and a function `log`.  The
  theorems about scores instantiate `F` with the real numbers and `log` with
  `Real.log`.  A quotient over the reals is only read where its denominator is
  not zero: the value that the real instance gives `x / 0` is not a statement
  about the source, whose `double` division by zero is infinite.
* `iss >> word` on a `std::istringstream` is the function `tokens`.
-/

namespace CustomSearchEngine

/-! ## Containers -/

section Containers

variable {K : Type} {V : Type} [DecidableEq K]

/-- The call `m.find(k)` of an unordered map: the value stored under `k`, if any. -/
def lookup (k : K) : List (K × V) → Option V
  | [] => none
  | (k', v) :: rest => if k' = k then some v else lookup k rest

/-- The assignment `m[k] = v` of an unordered map: the value of an existing key is replaced
in place, a new key is added at the end. -/
def assign (k : K) (v : V) : List (K × V) → List (K × V)
  | [] => [(k, v)]
  | (k', v') :: rest => if k' = k then (k', v) :: rest else (k', v') :: assign k v rest

/-- The key set of an unordered map, in iteration order. -/
def keys (m : List (K × V)) : List K := m.map Prod.fst

/-- The call `s.insert(x)` of an unordered set. -/
def setInsert (x : K) (s : List K) : List K := if x ∈ s then s else s ++ [x]

end Containers

/-! ## Tokenisation -/

/-- The predicate `std::isspace` of the C locale, used by `operator>>` to delimit tokens:
space, `\t`, `\n`, `\v`, `\f` and `\r`. -/
def isspace (c : Char) : Bool := c.toNat = 32 || (9 ≤ c.toNat && c.toNat ≤ 13)

/-- The loop `while (iss >> word)` seen as a scan of the remaining input; `cur` holds the
characters of the token read so far.  A token ends at a whitespace character or at the end
of the input, and an extraction that reads no character fails (ending the loop). -/
def tokensAux : List Char → List Char → List (List Char)
  | cur, [] => if cur.isEmpty then [] else [cur]
  | cur, c :: cs =>
    if isspace c then
      (if cur.isEmpty then tokensAux [] cs else cur :: tokensAux [] cs)
    else tokensAux (cur ++ [c]) cs

/-- The sequence of values taken by `word` in `while (iss >> word)` for
`std::istringstream iss(content)`. -/
def tokens (content : List Char) : List (List Char) := tokensAux [] content

/-! ## Trie -/

/-- The struct `TrieNode`: children by character, the end-of-word flag and the set of
document ids.  A node owns its children, so the pointer structure is a tree. -/
inductive TrieNode where
  | mk (children : List (Char × TrieNode)) (isEndOfWord : Bool) (documentIDs : List Int)

namespace TrieNode

/-- Field `children`. -/
def children : TrieNode → List (Char × TrieNode)
  | mk cs _ _ => cs

/-- Field `isEndOfWord`. -/
def isEndOfWord : TrieNode → Bool
  | mk _ e _ => e

/-- Field `documentIDs`. -/
def documentIDs : TrieNode → List Int
  | mk _ _ ds => ds

/-- The constructor `TrieNode()`: no children, not the end of a word, no document ids. -/
def new : TrieNode := mk [] false []

end TrieNode

/-- The class `Trie`: a root node. -/
structure Trie where
  root : TrieNode

namespace Trie

/-- The constructor `Trie()`. -/
def empty : Trie := ⟨TrieNode.new⟩

/-- The loop of `Trie::insert` started with `current = n`, followed by the two updates of
the node reached; the result is the subtree at `n` after the call. -/
def insertAt : TrieNode → List Char → Int → TrieNode
  | n, [], documentID => TrieNode.mk n.children true (setInsert documentID n.documentIDs)
  | n, ch :: word, documentID =>
    let child := match lookup ch n.children with
      | none => TrieNode.new
      | some c => c
    TrieNode.mk (assign ch (insertAt child word documentID) n.children)
      n.isEndOfWord n.documentIDs

/-- The method `Trie::insert`. -/
def insert (t : Trie) (word : List Char) (documentID : Int) : Trie :=
  ⟨insertAt t.root word documentID⟩

/-- The loop shared by `Trie::search` and `Trie::getAutocompleteSuggestions`: follow the
characters from `n`; `none` is the early `return {}` on a missing child. -/
def descend : TrieNode → List Char → Option TrieNode
  | n, [] => some n
  | n, ch :: word =>
    match lookup ch n.children with
    | none => none
    | some c => descend c word

/-- The method `Trie::search`. -/
def search (t : Trie) (word : List Char) : List Int :=
  match descend t.root word with
  | none => []
  | some current => if current.isEndOfWord then current.documentIDs else []

mutual
/-- The method `Trie::autocomplete`, with the vector `results` passed in and returned. -/
def autocomplete : TrieNode → List Char → List (List Char) → List (List Char)
  | TrieNode.mk cs e _, pre, results =>
    autocompleteChildren cs pre (if e then results ++ [pre] else results)
/-- The loop `for (auto& child : node->children)` of `Trie::autocomplete`. -/
def autocompleteChildren :
    List (Char × TrieNode) → List Char → List (List Char) → List (List Char)
  | [], _, results => results
  | (ch, c) :: rest, pre, results =>
    autocompleteChildren rest pre (autocomplete c (pre ++ [ch]) results)
end

/-- The method `Trie::getAutocompleteSuggestions`. -/
def getAutocompleteSuggestions (t : Trie) (pre : List Char) : List (List Char) :=
  match descend t.root pre with
  | none => []
  | some current => autocomplete current pre []

/-- A sequence of `insert(word, id)` calls applied in order. -/
def insertAll (t : Trie) (ops : List (List Char × Int)) : Trie :=
  ops.foldl (fun acc op => acc.insert op.1 op.2) t

/-- The document ids stored at the node reached from `n` along `w` (whatever its flag). -/
def docsAt (n : TrieNode) (w : List Char) : List Int :=
  match descend n w with
  | none => []
  | some m => m.documentIDs

/-- The end-of-word flag of the node reached from `n` along `w`. -/
def endAt (n : TrieNode) (w : List Char) : Bool :=
  match descend n w with
  | none => false
  | some m => m.isEndOfWord

/-- Every node below `n` (the node `n` included) has pairwise distinct child characters. -/
def ChildKeysNodup (n : TrieNode) : Prop :=
  ∀ (s : List Char) (m : TrieNode), descend n s = some m → (keys m.children).Nodup

end Trie

/-! ## InvertedIndex -/

section Subscript

variable {K : Type} {V : Type} [DecidableEq K]

/-- The expression `m[k]` of an unordered map used as a value: the stored value, or, when
the key is absent, the default `dflt`, which is then also stored under `k`.  The result is
the value read and the map after the access. -/
def subscript (k : K) (dflt : V) (m : List (K × V)) : V × List (K × V) :=
  match lookup k m with
  | some v => (v, m)
  | none => (dflt, assign k dflt m)

end Subscript

/-- The class `InvertedIndex`. -/
structure InvertedIndex where
  index : List (List Char × List (Int × Nat))
  documentLengths : List (Int × Nat)
  totalDocuments : Nat

namespace InvertedIndex

/-- The constructor `InvertedIndex()`. -/
def empty : InvertedIndex := ⟨[], [], 0⟩

/-- The statement `index[word][documentID]++`: both subscripts create a missing entry
(an empty inner map, a zero count) before the increment. -/
def increment (index : List (List Char × List (Int × Nat))) (word : List Char)
    (documentID : Int) : List (List Char × List (Int × Nat)) :=
  let inner := (subscript word [] index).1
  let count := (subscript documentID 0 inner).1
  assign word (assign documentID (count + 1) inner) index

/-- The loop `while (iss >> word)` of `InvertedIndex::addDocument`; the state is the field
`index` and the local `wordCount`. -/
def addDocumentLoop (documentID : Int) (ws : List (List Char))
    (st : List (List Char × List (Int × Nat)) × Nat) :
    List (List Char × List (Int × Nat)) × Nat :=
  ws.foldl (fun acc word => (increment acc.1 word documentID, acc.2 + 1)) st

/-- The method `InvertedIndex::addDocument`. -/
def addDocument (idx : InvertedIndex) (documentID : Int) (content : List Char) :
    InvertedIndex :=
  let r := addDocumentLoop documentID (tokens content) (idx.index, 0)
  { index := r.1
    documentLengths := assign documentID r.2 idx.documentLengths
    totalDocuments := idx.totalDocuments + 1 }

/-- One iteration of the loop of `InvertedIndex::searchWord` over the entries
`(docID, termFreq)` of `index[word]`; the state is `result` and the field
`documentLengths`, which `documentLengths[docID]` may extend by a zero entry. -/
def searchWordStep {F : Type} [Mul F] [Div F] [NatCast F] (idf : F)
    (acc : List (Int × F) × List (Int × Nat)) (e : Int × Nat) :
    List (Int × F) × List (Int × Nat) :=
  let len := subscript e.1 0 acc.2
  let tf : F := (e.2 : F) / (len.1 : F)
  (assign e.1 (tf * idf) acc.1, len.2)

/-- The method `InvertedIndex::searchWord`: the result map and the index after the call. -/
def searchWord {F : Type} [Mul F] [Div F] [NatCast F] (log : F → F) (idx : InvertedIndex)
    (word : List Char) : List (Int × F) × InvertedIndex :=
  match lookup word idx.index with
  | none => ([], idx)
  | some postings =>
    let docFreq : Nat := postings.length
    let idf : F := log ((idx.totalDocuments : F) / (docFreq : F))
    let r := postings.foldl (searchWordStep idf) ([], idx.documentLengths)
    (r.1, { idx with documentLengths := r.2 })

/-- The inner loop of `InvertedIndex::searchPhrase` over `combinedResults`: an entry whose
key is in `wordResults` has that score added, any other entry is erased. -/
def intersectAdd {F : Type} [Add F] (combinedResults wordResults : List (Int × F)) :
    List (Int × F) :=
  combinedResults.filterMap (fun e =>
    match lookup e.1 wordResults with
    | some s => some (e.1, e.2 + s)
    | none => none)

/-- One iteration of the loop `while (iss >> word)` of `InvertedIndex::searchPhrase`; the
state is `combinedResults`, `firstWord` and the index. -/
def searchPhraseStep {F : Type} [Add F] [Mul F] [Div F] [NatCast F] (log : F → F)
    (st : List (Int × F) × Bool × InvertedIndex) (word : List Char) :
    List (Int × F) × Bool × InvertedIndex :=
  let wr := searchWord log st.2.2 word
  if st.2.1 then (wr.1, false, wr.2) else (intersectAdd st.1 wr.1, false, wr.2)

/-- The method `InvertedIndex::searchPhrase`: the result map and the index after the call. -/
def searchPhrase {F : Type} [Add F] [Mul F] [Div F] [NatCast F] (log : F → F)
    (idx : InvertedIndex) (phrase : List Char) : List (Int × F) × InvertedIndex :=
  let r := (tokens phrase).foldl (searchPhraseStep log) ([], true, idx)
  (r.1, r.2.2)

/-- The statement `results[docID] += score`: a missing entry starts at zero. -/
def addScore {F : Type} [Zero F] [Add F] (results : List (Int × F)) (e : Int × F) :
    List (Int × F) :=
  let cur := subscript e.1 0 results
  assign e.1 (cur.1 + e.2) cur.2

/-- One iteration of the loop `while (iss >> word)` of `InvertedIndex::searchWithRanking`. -/
def searchWithRankingStep {F : Type} [Zero F] [Add F] [Mul F] [Div F] [NatCast F]
    (log : F → F) (st : List (Int × F) × InvertedIndex) (word : List Char) :
    List (Int × F) × InvertedIndex :=
  let wr := searchWord log st.2 word
  (wr.1.foldl addScore st.1, wr.2)

/-- The method `InvertedIndex::searchWithRanking`: the result map and the index after the
call. -/
def searchWithRanking {F : Type} [Zero F] [Add F] [Mul F] [Div F] [NatCast F]
    (log : F → F) (idx : InvertedIndex) (query : List Char) :
    List (Int × F) × InvertedIndex :=
  (tokens query).foldl (searchWithRankingStep log) ([], idx)

/-- A sequence of `addDocument(id, text)` calls applied in order. -/
def addAll (idx : InvertedIndex) (calls : List (Int × List Char)) : InvertedIndex :=
  calls.foldl (fun acc c => acc.addDocument c.1 c.2) idx

/-- The number of occurrences of `w` among the tokens of all the texts that `calls` passes
under id `d`. -/
def occurrences (w : List Char) (d : Int) (calls : List (Int × List Char)) : Nat :=
  ((calls.filter (fun c => c.1 = d)).map (fun c => (tokens c.2).count w)).sum

/-- The text of the most recent call of `calls` that names id `d`, if any. -/
def lastText (d : Int) (calls : List (Int × List Char)) : Option (List Char) :=
  ((calls.filter (fun c => c.1 = d)).getLast?).map Prod.snd

/-- The count stored as `index[w][d]`, if there is such an entry. -/
def stored (index : List (List Char × List (Int × Nat))) (w : List Char) (d : Int) :
    Option Nat :=
  (lookup w index).bind (lookup d)

/-- No entry of the index holds the count zero. -/
def Positive (index : List (List Char × List (Int × Nat))) : Prop :=
  ∀ (w : List Char) (d : Int), stored index w d ≠ some 0

/-- The score `tf * idf` that `searchWord` gives the entry `e = (docID, termFreq)` when
`documentLengths[docID]` is read from `lens`, a missing entry reading as zero. -/
def tfidf {F : Type} [Mul F] [Div F] [NatCast F] (idf : F) (lens : List (Int × Nat))
    (e : Int × Nat) : F :=
  (e.2 : F) / (((lookup e.1 lens).getD 0 : Nat) : F) * idf

/-- The result map of `searchWord` written without the accesses that may extend
`documentLengths`. -/
def wordScores {F : Type} [Mul F] [Div F] [NatCast F] (log : F → F) (idx : InvertedIndex)
    (word : List Char) : List (Int × F) :=
  match lookup word idx.index with
  | none => []
  | some postings =>
    postings.foldl
      (fun a e =>
        assign e.1
          (tfidf (log ((idx.totalDocuments : F) / (postings.length : F)))
            idx.documentLengths e) a) []

/-- Every inner map of the index has pairwise distinct keys. -/
def KeysNodup (index : List (List Char × List (Int × Nat))) : Prop :=
  ∀ (w : List Char) (postings : List (Int × Nat)),
    lookup w index = some postings → (keys postings).Nodup

/-- Two index states that the methods cannot tell apart: the same `index`, the same
`totalDocuments`, and the same value of `documentLengths[d]` for every `d`, where a
missing entry reads as zero. -/
def SameView (a b : InvertedIndex) : Prop :=
  a.index = b.index ∧ a.totalDocuments = b.totalDocuments ∧
    ∀ d : Int, (lookup d a.documentLengths).getD 0 = (lookup d b.documentLengths).getD 0

end InvertedIndex

/-! ## SearchEngine -/

section Sorting

variable {α : Type}

/-- Insertion of `x` into a list ordered by `comp`, before the first element that `x`
precedes. -/
def insertSorted (comp : α → α → Bool) (x : α) : List α → List α
  | [] => [x]
  | y :: ys => if comp x y then x :: y :: ys else y :: insertSorted comp x ys

/-- The call `std::sort(begin, end, comp)`, as an insertion sort.  The standard leaves the
algorithm and the order of equivalent elements open. -/
def sortBy (comp : α → α → Bool) (l : List α) : List α :=
  l.foldr (insertSorted comp) []

end Sorting

/-- The class `SearchEngine`. -/
structure SearchEngine where
  trie : Trie
  invertedIndex : InvertedIndex
  documentStore : List (Int × List Char)

namespace SearchEngine

/-- A freshly constructed engine. -/
def new : SearchEngine := ⟨Trie.empty, InvertedIndex.empty, []⟩

/-- The method `SearchEngine::addDocument`. -/
def addDocument (e : SearchEngine) (documentID : Int) (content : List Char) :
    SearchEngine :=
  { trie := (tokens content).foldl (fun t word => t.insert word documentID) e.trie
    invertedIndex := e.invertedIndex.addDocument documentID content
    documentStore := assign documentID content e.documentStore }

/-- The method `SearchEngine::displayDocument`: the text printed, `none` standing for the
message "Document not found!". -/
def displayDocument (e : SearchEngine) (documentID : Int) : Option (List Char) :=
  lookup documentID e.documentStore

/-- The method `SearchEngine::search`: the lines printed, one `(id, score, document)` per
result in the order of printing, and the engine after the call.  The empty list stands for
the message "No results found". -/
def search {F : Type} [Zero F] [Add F] [Mul F] [Div F] [NatCast F] [LT F]
    [DecidableRel (fun a b : F => a < b)] (log : F → F) (e : SearchEngine)
    (query : List Char) : List (Int × F × Option (List Char)) × SearchEngine :=
  let ranked := e.invertedIndex.searchWithRanking log query
  let sortedResults := sortBy (fun a b : Int × F => decide (b.2 < a.2)) ranked.1
  (sortedResults.map (fun r => (r.1, r.2, e.displayDocument r.1)),
    { e with invertedIndex := ranked.2 })

/-- The method `SearchEngine::searchPhrase`: as `search`, but the results are printed in
the iteration order of the result map. -/
def searchPhrase {F : Type} [Add F] [Mul F] [Div F] [NatCast F] (log : F → F)
    (e : SearchEngine) (phrase : List Char) :
    List (Int × F × Option (List Char)) × SearchEngine :=
  let results := e.invertedIndex.searchPhrase log phrase
  (results.1.map (fun r => (r.1, r.2, e.displayDocument r.1)),
    { e with invertedIndex := results.2 })

/-- The method `SearchEngine::autocomplete`: the suggestions printed, the empty list
standing for the message "No autocomplete suggestions". -/
def autocomplete (e : SearchEngine) (pre : List Char) : List (List Char) :=
  e.trie.getAutocompleteSuggestions pre

/-- A sequence of `addDocument(id, text)` calls applied in order. -/
def addAll (e : SearchEngine) (calls : List (Int × List Char)) : SearchEngine :=
  calls.foldl (fun acc c => acc.addDocument c.1 c.2) e

/-- The `trie.insert(word, id)` calls that a sequence of `addDocument(id, text)` calls
makes, in order: one per token of each text. -/
def tokenInsertions : List (Int × List Char) → List (List Char × Int)
  | [] => []
  | c :: rest => (tokens c.2).map (fun word => (word, c.1)) ++ tokenInsertions rest

end SearchEngine

/-- The three documents that `main` adds, in order. -/
def sampleDocuments : List (Int × List Char) :=
  [(1, "Hello world, this is a simple search engine.".toList),
   (2, "Hello again, this search engine indexes documents.".toList),
   (3, "The world is full of data, and this engine searches through it.".toList)]

/-- The engine of `main` after its three `addDocument` calls. -/
def sampleEngine : SearchEngine := SearchEngine.new.addAll sampleDocuments

/-! ## Facts about the containers -/

section ContainerLemmas

variable {K : Type} {V : Type} [DecidableEq K]

theorem lookup_assign (k k' : K) (v : V) (m : List (K × V)) :
    lookup k' (assign k v m) = if k' = k then some v else lookup k' m := by
  induction m with
  | nil =>
    by_cases h : k' = k
    · simp [assign, lookup, h]
    · have h' : ¬ k = k' := fun e => h e.symm
      simp [assign, lookup, h, h']
  | cons p rest ih =>
    obtain ⟨a, b⟩ := p
    by_cases ha : a = k
    · by_cases h : k' = k
      · simp [assign, lookup, ha, h]
      · have h' : ¬ k = k' := fun e => h e.symm
        simp [assign, lookup, ha, h, h']
    · by_cases h : a = k'
      · have h' : ¬ k' = k := fun e => ha (h.trans e)
        simp [assign, lookup, ha, h, h']
      · simp [assign, lookup, ha, h, ih]

theorem mem_setInsert (x y : K) (s : List K) : y ∈ setInsert x s ↔ y = x ∨ y ∈ s := by
  unfold setInsert
  by_cases h : x ∈ s
  · simp only [h, if_true]
    constructor
    · exact fun hy => Or.inr hy
    · rintro (rfl | hy)
      · exact h
      · exact hy
  · simp only [h, if_false, List.mem_append, List.mem_singleton]
    tauto

theorem nodup_setInsert (x : K) (s : List K) (hs : s.Nodup) : (setInsert x s).Nodup := by
  unfold setInsert
  by_cases h : x ∈ s
  · simpa [h] using hs
  · simp only [h, if_false]
    rw [List.nodup_append]
    refine ⟨hs, List.nodup_singleton x, ?_⟩
    intro a ha hb
    rw [List.mem_singleton] at hb
    exact h (hb ▸ ha)

end ContainerLemmas

/-! ## Facts about the trie -/

namespace Trie

theorem search_eq (t : Trie) (w : List Char) :
    t.search w = if endAt t.root w then docsAt t.root w else [] := by
  unfold search endAt docsAt
  cases descend t.root w <;> simp

theorem descend_new (w : List Char) (h : w ≠ []) : descend TrieNode.new w = none := by
  cases w with
  | nil => exact absurd rfl h
  | cons c w => simp [descend, TrieNode.new, TrieNode.children, lookup]

theorem docsAt_new (w : List Char) : docsAt TrieNode.new w = [] := by
  cases w with
  | nil => rfl
  | cons c w => simp [docsAt, descend_new]

theorem endAt_new (w : List Char) : endAt TrieNode.new w = false := by
  cases w with
  | nil => rfl
  | cons c w => simp [endAt, descend_new]

theorem docsAt_cons (n : TrieNode) (c : Char) (w : List Char) :
    docsAt n (c :: w) =
      docsAt (match lookup c n.children with | none => TrieNode.new | some m => m) w := by
  unfold docsAt
  simp only [descend]
  cases h : lookup c n.children with
  | none =>
    have := docsAt_new w
    unfold docsAt at this
    simp [this]
  | some m => simp

theorem endAt_cons (n : TrieNode) (c : Char) (w : List Char) :
    endAt n (c :: w) =
      endAt (match lookup c n.children with | none => TrieNode.new | some m => m) w := by
  unfold endAt
  simp only [descend]
  cases h : lookup c n.children with
  | none =>
    have := endAt_new w
    unfold endAt at this
    simp [this]
  | some m => simp

theorem docsAt_insertAt (n : TrieNode) (w w' : List Char) (d : Int) :
    docsAt (insertAt n w d) w' = if w' = w then setInsert d (docsAt n w) else docsAt n w' := by
  induction w generalizing n w' with
  | nil =>
    cases w' with
    | nil => simp [insertAt, docsAt, descend, TrieNode.documentIDs]
    | cons c w' => simp [insertAt, docsAt, descend, TrieNode.children]
  | cons ch w ih =>
    cases w' with
    | nil => simp [insertAt, docsAt, descend, TrieNode.documentIDs]
    | cons c w' =>
      rw [docsAt_cons, docsAt_cons n c, docsAt_cons n ch]
      simp only [insertAt, TrieNode.children, lookup_assign]
      by_cases hc : c = ch
      · subst hc
        simp only [if_true, ih, List.cons.injEq, true_and]
      · simp [hc]

theorem endAt_insertAt (n : TrieNode) (w w' : List Char) (d : Int) :
    endAt (insertAt n w d) w' = if w' = w then true else endAt n w' := by
  induction w generalizing n w' with
  | nil =>
    cases w' with
    | nil => simp [insertAt, endAt, descend, TrieNode.isEndOfWord]
    | cons c w' => simp [insertAt, endAt, descend, TrieNode.children]
  | cons ch w ih =>
    cases w' with
    | nil => simp [insertAt, endAt, descend, TrieNode.isEndOfWord]
    | cons c w' =>
      rw [endAt_cons, endAt_cons n c]
      simp only [insertAt, TrieNode.children, lookup_assign]
      by_cases hc : c = ch
      · subst hc
        simp only [if_true, ih, List.cons.injEq, true_and]
      · simp [hc]

theorem insertAll_cons (t : Trie) (op : List Char × Int) (ops : List (List Char × Int)) :
    insertAll t (op :: ops) = insertAll (t.insert op.1 op.2) ops := rfl

theorem mem_docsAt_insertAll (t : Trie) (ops : List (List Char × Int)) (w : List Char)
    (d : Int) :
    d ∈ docsAt (insertAll t ops).root w ↔ d ∈ docsAt t.root w ∨ (w, d) ∈ ops := by
  induction ops generalizing t with
  | nil => simp [insertAll]
  | cons op ops ih =>
    obtain ⟨w0, d0⟩ := op
    rw [insertAll_cons, ih]
    simp only [insert, docsAt_insertAt, List.mem_cons, Prod.mk.injEq]
    by_cases hw : w = w0
    · subst hw
      simp only [if_true, mem_setInsert, true_and]
      tauto
    · simp [hw]

theorem endAt_insertAll (t : Trie) (ops : List (List Char × Int)) (w : List Char) :
    endAt (insertAll t ops).root w = true ↔
      endAt t.root w = true ∨ ∃ d, (w, d) ∈ ops := by
  induction ops generalizing t with
  | nil => simp [insertAll]
  | cons op ops ih =>
    obtain ⟨w0, d0⟩ := op
    rw [insertAll_cons, ih]
    simp only [insert, endAt_insertAt, List.mem_cons, Prod.mk.injEq]
    by_cases hw : w = w0
    · subst hw
      simp only [if_true, true_and, true_or, true_iff]
      exact Or.inr ⟨d0, Or.inl rfl⟩
    · simp [hw]

theorem nodup_docsAt_insertAll (t : Trie) (ops : List (List Char × Int)) (w : List Char)
    (h : ∀ w, (docsAt t.root w).Nodup) : (docsAt (insertAll t ops).root w).Nodup := by
  induction ops generalizing t with
  | nil => exact h w
  | cons op ops ih =>
    rw [insertAll_cons]
    apply ih
    intro w'
    simp only [insert, docsAt_insertAt]
    by_cases hw : w' = op.1
    · simp only [hw, if_true]
      exact nodup_setInsert _ _ (h _)
    · simp only [hw, if_false]
      exact h w'

/-- C1. After any sequence of `insert(word, id)` calls on an empty trie, `search(w)` is
exactly the set of ids `d` for which `insert(w, d)` is in the sequence: it holds `d` for
every inserted pair, holds nothing else, has no repeated element, and is empty for a word
that was never inserted (a proper prefix or extension of inserted words included). -/
theorem search_insertAll_exact (ops : List (List Char × Int)) (w : List Char) :
    (∀ d : Int, d ∈ (insertAll empty ops).search w ↔ (w, d) ∈ ops) ∧
    ((insertAll empty ops).search w).Nodup ∧
    ((∀ d : Int, (w, d) ∉ ops) → (insertAll empty ops).search w = []) := by
  have hmem : ∀ d : Int, d ∈ (insertAll empty ops).search w ↔ (w, d) ∈ ops := by
    intro d
    rw [search_eq]
    by_cases he : endAt (insertAll empty ops).root w = true
    · rw [if_pos he, mem_docsAt_insertAll]
      simp [empty, docsAt_new]
    · simp only [he]
      have hno := mt (endAt_insertAll empty ops w).mpr he
      constructor
      · intro hd
        simp at hd
      · intro hd
        exact absurd (Or.inr ⟨d, hd⟩) hno
  refine ⟨hmem, ?_, ?_⟩
  · rw [search_eq]
    by_cases he : endAt (insertAll empty ops).root w = true
    · simp only [he, if_true]
      apply nodup_docsAt_insertAll
      intro w'
      simp [empty, docsAt_new]
    · simp [he]
  · intro hnone
    apply List.eq_nil_iff_forall_not_mem.mpr
    intro d hd
    exact hnone d ((hmem d).mp hd)


theorem autocomplete_mono :
    (∀ (n : TrieNode) (pre : List Char) (results : List (List Char)),
      ∀ x ∈ results, x ∈ autocomplete n pre results) := by
  intro n pre results
  refine autocomplete.induct
    (fun n pre results => ∀ x ∈ results, x ∈ autocomplete n pre results)
    (fun cs pre results => ∀ x ∈ results, x ∈ autocompleteChildren cs pre results)
    ?_ ?_ ?_ n pre results
  · intro cs e ds pre results ih x hx
    rw [autocomplete]
    apply ih
    by_cases he : e = true
    · simp [he, hx]
    · simp [he, hx]
  · intro pre results x hx
    rw [autocompleteChildren]
    exact hx
  · intro ch c rest pre results ih1 ih2 x hx
    rw [autocompleteChildren]
    exact ih2 x (ih1 x hx)

theorem autocompleteChildren_mono (cs : List (Char × TrieNode)) (pre : List Char)
    (results : List (List Char)) : ∀ x ∈ results, x ∈ autocompleteChildren cs pre results := by
  induction cs generalizing results with
  | nil => intro x hx; rw [autocompleteChildren]; exact hx
  | cons p rest ih =>
    obtain ⟨ch, c⟩ := p
    intro x hx
    rw [autocompleteChildren]
    exact ih _ x (autocomplete_mono c _ _ x hx)

theorem autocompleteChildren_of_child (cs : List (Char × TrieNode)) (pre : List Char)
    (results : List (List Char)) (ch : Char) (m : TrieNode) (x : List Char)
    (hm : lookup ch cs = some m)
    (hx : ∀ r, x ∈ autocomplete m (pre ++ [ch]) r) :
    x ∈ autocompleteChildren cs pre results := by
  induction cs generalizing results with
  | nil => simp [lookup] at hm
  | cons p rest ih =>
    obtain ⟨c0, n0⟩ := p
    rw [autocompleteChildren]
    by_cases hc : c0 = ch
    · subst hc
      simp only [lookup, if_true, Option.some.injEq] at hm
      subst hm
      exact autocompleteChildren_mono _ _ _ x (hx results)
    · simp only [lookup, hc, if_false] at hm
      exact ih _ hm

theorem mem_autocomplete_of_endAt (w : List Char) (n : TrieNode) (pre : List Char)
    (results : List (List Char)) (h : endAt n w = true) :
    pre ++ w ∈ autocomplete n pre results := by
  induction w generalizing n pre results with
  | nil =>
    obtain ⟨cs, e, ds⟩ := n
    simp only [endAt, descend, TrieNode.isEndOfWord] at h
    subst h
    rw [autocomplete]
    apply autocompleteChildren_mono
    simp
  | cons c w ih =>
    obtain ⟨cs, e, ds⟩ := n
    rw [endAt_cons] at h
    simp only [TrieNode.children] at h
    cases hl : lookup c cs with
    | none =>
      rw [hl] at h
      simp [endAt_new] at h
    | some m =>
      rw [hl] at h
      rw [autocomplete]
      apply autocompleteChildren_of_child cs pre _ c m _ hl
      intro r
      have := ih m (pre ++ [c]) r h
      simpa using this

theorem endAt_append (p s : List Char) (n : TrieNode) (h : endAt n (p ++ s) = true) :
    ∃ m, descend n p = some m ∧ endAt m s = true := by
  induction p generalizing n with
  | nil => exact ⟨n, rfl, h⟩
  | cons c p ih =>
    rw [List.cons_append, endAt_cons] at h
    cases hl : lookup c n.children with
    | none =>
      rw [hl] at h
      simp [endAt_new] at h
    | some m =>
      rw [hl] at h
      obtain ⟨m', h1, h2⟩ := ih m h
      exact ⟨m', by simp [descend, hl, h1], h2⟩

theorem mem_suggestions_of_endAt (t : Trie) (p s : List Char)
    (h : endAt t.root (p ++ s) = true) : p ++ s ∈ t.getAutocompleteSuggestions p := by
  obtain ⟨m, h1, h2⟩ := endAt_append p s t.root h
  unfold getAutocompleteSuggestions
  rw [h1]
  exact mem_autocomplete_of_endAt s m p [] h2

/-- C2. After any sequence of `insert` calls on an empty trie, every inserted word `w` that
starts with `p` is among `getAutocompleteSuggestions(p)`; and after the three sample
documents, the suggestions for "sear" include "search" and "searches". -/
theorem suggestions_complete :
    (∀ (ops : List (List Char × Int)) (p w : List Char) (d : Int),
      p <+: w → (w, d) ∈ ops → w ∈ (insertAll empty ops).getAutocompleteSuggestions p) ∧
    ("search".toList ∈ sampleEngine.autocomplete "sear".toList ∧
      "searches".toList ∈ sampleEngine.autocomplete "sear".toList) := by
  refine ⟨?_, by decide, by decide⟩
  intro ops p w d hp hw
  obtain ⟨s, rfl⟩ := hp
  apply mem_suggestions_of_endAt
  exact (endAt_insertAll empty ops (p ++ s)).mpr (Or.inr ⟨d, hw⟩)

/-- The statement C2 at the words "search" (document 1) and "searches" (document 3) and
the prefix "sear". -/
theorem suggestions_complete_witness :
    "searches".toList ∈
      (insertAll empty [("search".toList, 1), ("searches".toList, 3)]).getAutocompleteSuggestions
        "sear".toList :=
  suggestions_complete.1 [("search".toList, 1), ("searches".toList, 3)] "sear".toList
    "searches".toList 3 (by decide) (by decide)

end Trie

section SubscriptLemmas

variable {K : Type} {V : Type} [DecidableEq K]

theorem subscript_fst (k : K) (dflt : V) (m : List (K × V)) :
    (subscript k dflt m).1 = (lookup k m).getD dflt := by
  unfold subscript
  cases lookup k m <;> rfl

theorem lookup_subscript_snd (k k' : K) (dflt : V) (m : List (K × V)) :
    (lookup k' (subscript k dflt m).2).getD dflt = (lookup k' m).getD dflt := by
  unfold subscript
  cases h : lookup k m with
  | some v => rfl
  | none =>
    simp only [lookup_assign]
    by_cases hk : k' = k
    · subst hk
      simp [h]
    · simp [hk]

end SubscriptLemmas

namespace InvertedIndex

theorem stored_increment (index : List (List Char × List (Int × Nat))) (w w' : List Char)
    (d d' : Int) :
    stored (increment index w d) w' d' =
      if w' = w ∧ d' = d then some ((stored index w d).getD 0 + 1) else stored index w' d' := by
  unfold stored increment
  simp only [lookup_assign, subscript_fst]
  by_cases hw : w' = w
  · subst hw
    simp only [if_true, true_and, Option.some_bind, lookup_assign]
    by_cases hd : d' = d
    · subst hd
      simp only [if_true]
      cases lookup w' index <;> rfl
    · simp only [hd, if_false]
      cases lookup w' index <;> rfl
  · simp [hw]


theorem addDocumentLoop_nil (d : Int) (st : List (List Char × List (Int × Nat)) × Nat) :
    addDocumentLoop d [] st = st := rfl

theorem addDocumentLoop_cons (d : Int) (w : List Char) (ws : List (List Char))
    (st : List (List Char × List (Int × Nat)) × Nat) :
    addDocumentLoop d (w :: ws) st = addDocumentLoop d ws (increment st.1 w d, st.2 + 1) := rfl

theorem addDocumentLoop_snd (d : Int) (ws : List (List Char))
    (st : List (List Char × List (Int × Nat)) × Nat) :
    (addDocumentLoop d ws st).2 = st.2 + ws.length := by
  induction ws generalizing st with
  | nil => rfl
  | cons w ws ih =>
    rw [addDocumentLoop_cons, ih]
    simp only [List.length_cons]
    omega

theorem stored_addDocumentLoop (d : Int) (ws : List (List Char))
    (st : List (List Char × List (Int × Nat)) × Nat) (w : List Char) (d' : Int) :
    (stored (addDocumentLoop d ws st).1 w d').getD 0 =
      (stored st.1 w d').getD 0 + (if d = d' then ws.count w else 0) := by
  induction ws generalizing st with
  | nil => simp [addDocumentLoop_nil]
  | cons w0 ws ih =>
    rw [addDocumentLoop_cons, ih]
    simp only [stored_increment]
    by_cases hd : d = d'
    · subst hd
      by_cases hw : w = w0
      · subst hw
        simp only [and_self, if_true, Option.getD_some, List.count_cons_self]
        omega
      · have hw' : ¬ w0 = w := fun e => hw e.symm
        simp [hw, List.count_cons, hw']
    · have hd' : ¬ d' = d := fun e => hd e.symm
      simp [hd, hd']

theorem positive_increment (index : List (List Char × List (Int × Nat))) (w : List Char)
    (d : Int) (h : Positive index) : Positive (increment index w d) := by
  intro w' d'
  rw [stored_increment]
  by_cases hc : w' = w ∧ d' = d
  · simp [hc]
  · simp only [hc, if_false]
    exact h w' d'

theorem positive_addDocumentLoop (d : Int) (ws : List (List Char))
    (st : List (List Char × List (Int × Nat)) × Nat) (h : Positive st.1) :
    Positive (addDocumentLoop d ws st).1 := by
  induction ws generalizing st with
  | nil => exact h
  | cons w ws ih =>
    rw [addDocumentLoop_cons]
    exact ih _ (positive_increment _ _ _ h)

theorem addAll_append (idx : InvertedIndex) (calls : List (Int × List Char))
    (c : Int × List Char) :
    addAll idx (calls ++ [c]) = (addAll idx calls).addDocument c.1 c.2 := by
  simp [addAll, List.foldl_append]

theorem occurrences_append (w : List Char) (d : Int) (calls : List (Int × List Char))
    (c : Int × List Char) :
    occurrences w d (calls ++ [c]) =
      occurrences w d calls + (if c.1 = d then (tokens c.2).count w else 0) := by
  unfold occurrences
  by_cases h : c.1 = d
  · simp [List.filter_append, List.filter_cons, h]
  · simp [List.filter_append, List.filter_cons, h]

theorem positive_addAll (calls : List (Int × List Char)) :
    Positive (addAll empty calls).index := by
  induction calls using List.reverseRecOn with
  | nil =>
    intro w d
    simp [addAll, empty, stored, lookup]
  | append_singleton calls c ih =>
    rw [addAll_append]
    exact positive_addDocumentLoop _ _ _ ih

theorem storedD_addAll (calls : List (Int × List Char)) (w : List Char) (d : Int) :
    (stored (addAll empty calls).index w d).getD 0 = occurrences w d calls := by
  induction calls using List.reverseRecOn with
  | nil => simp [addAll, empty, stored, lookup, occurrences]
  | append_singleton calls c ih =>
    rw [addAll_append, occurrences_append, ← ih]
    exact stored_addDocumentLoop _ _ _ _ _

theorem stored_eq_occurrences (calls : List (Int × List Char)) (w : List Char) (d : Int) :
    stored (addAll empty calls).index w d =
      (if occurrences w d calls = 0 then none else some (occurrences w d calls)) := by
  have h1 := storedD_addAll calls w d
  have h2 := positive_addAll calls w d
  cases hs : stored (addAll empty calls).index w d with
  | none =>
    rw [hs] at h1
    simp only [Option.getD_none] at h1
    simp [← h1]
  | some n =>
    rw [hs] at h1 h2
    simp only [Option.getD_some] at h1
    have hn : n ≠ 0 := fun e => h2 (by rw [e])
    rw [← h1]
    simp [hn]

/-- C3. After any sequence of `addDocument` calls on an empty index, the entry
`index[w][d]` exists exactly when `w` occurs among the tokens of the texts added under id
`d`, and then holds the total number of these occurrences, summed over all calls naming
`d`; in particular two calls with the same id and texts `T1`, `T2` leave the sum of the
two occurrence counts. -/
theorem index_counts_occurrences (calls : List (Int × List Char)) (w : List Char) (d : Int) :
    stored (addAll empty calls).index w d =
        (if occurrences w d calls = 0 then none else some (occurrences w d calls)) ∧
    ∀ T1 T2 : List Char,
      stored (addAll empty [(d, T1), (d, T2)]).index w d =
        (if (tokens T1).count w + (tokens T2).count w = 0 then none
          else some ((tokens T1).count w + (tokens T2).count w)) := by
  refine ⟨stored_eq_occurrences calls w d, ?_⟩
  intro T1 T2
  rw [stored_eq_occurrences]
  simp [occurrences]

theorem lastText_append (d : Int) (calls : List (Int × List Char)) (c : Int × List Char) :
    lastText d (calls ++ [c]) = if c.1 = d then some c.2 else lastText d calls := by
  unfold lastText
  by_cases h : c.1 = d
  · simp [List.filter_append, List.filter_cons, h]
  · simp [List.filter_append, List.filter_cons, h]

theorem totalDocuments_eq_length (calls : List (Int × List Char)) :
    (addAll empty calls).totalDocuments = calls.length := by
  induction calls using List.reverseRecOn with
  | nil => rfl
  | append_singleton calls c ih =>
    rw [addAll_append]
    simp [addDocument, ih]

theorem documentLengths_eq_lastText (calls : List (Int × List Char)) (d : Int) :
    lookup d (addAll empty calls).documentLengths =
      (lastText d calls).map (fun text => (tokens text).length) := by
  induction calls using List.reverseRecOn with
  | nil => simp [addAll, empty, lookup, lastText]
  | append_singleton calls c ih =>
    rw [addAll_append, lastText_append]
    simp only [addDocument, lookup_assign, addDocumentLoop_snd, Nat.zero_add]
    by_cases h : c.1 = d
    · subst h
      simp
    · have h' : ¬ d = c.1 := fun e => h e.symm
      simp [h, h', ih]

/-- C4. After any sequence of `addDocument` calls on an empty index, `totalDocuments` is
the number of calls (repeated ids included) and `documentLengths[d]` is the number of
tokens of the text of the most recent call naming `d`; there is no entry for an id that no
call names. -/
theorem totalDocuments_and_documentLengths (calls : List (Int × List Char)) (d : Int) :
    (addAll empty calls).totalDocuments = calls.length ∧
    lookup d (addAll empty calls).documentLengths =
      (lastText d calls).map (fun text => (tokens text).length) :=
  ⟨totalDocuments_eq_length calls, documentLengths_eq_lastText calls d⟩

end InvertedIndex

section AssignLemmas

variable {K : Type} {V : Type} [DecidableEq K]

theorem lookup_eq_none_iff (k : K) (m : List (K × V)) : lookup k m = none ↔ k ∉ keys m := by
  induction m with
  | nil => simp [lookup, keys]
  | cons p rest ih =>
    obtain ⟨a, b⟩ := p
    by_cases h : a = k
    · simp [lookup, keys, h]
    · have h' : ¬ k = a := fun e => h e.symm
      simp only [lookup, h, if_false, ih]
      simp [keys, h']

theorem lookup_isSome_iff (k : K) (m : List (K × V)) :
    (lookup k m).isSome = true ↔ k ∈ keys m := by
  rw [← not_iff_not, ← lookup_eq_none_iff]
  cases lookup k m <;> simp

theorem keys_assign (k : K) (v : V) (m : List (K × V)) :
    keys (assign k v m) = if k ∈ keys m then keys m else keys m ++ [k] := by
  induction m with
  | nil => simp [assign, keys]
  | cons p rest ih =>
    obtain ⟨a, b⟩ := p
    by_cases h : a = k
    · simp [assign, keys, h]
    · have h' : ¬ k = a := fun e => h e.symm
      simp only [assign, h, if_false]
      simp only [keys, List.map_cons, List.mem_cons, h', false_or] at ih ⊢
      rw [ih]
      by_cases hk : k ∈ List.map Prod.fst rest
      · simp [hk]
      · simp [hk]

theorem keys_assign_eq_setInsert (k : K) (v : V) (m : List (K × V)) :
    keys (assign k v m) = setInsert k (keys m) := by
  rw [keys_assign]
  rfl

theorem mem_keys_assign (k k' : K) (v : V) (m : List (K × V)) :
    k' ∈ keys (assign k v m) ↔ k' = k ∨ k' ∈ keys m := by
  rw [keys_assign_eq_setInsert, mem_setInsert]

theorem nodup_keys_assign (k : K) (v : V) (m : List (K × V)) (h : (keys m).Nodup) :
    (keys (assign k v m)).Nodup := by
  rw [keys_assign_eq_setInsert]
  exact nodup_setInsert _ _ h

theorem mem_keys_foldl_assign {E : Type} (key : E → K) (f : E → V) (l : List E)
    (acc : List (K × V)) (k : K) :
    k ∈ keys (l.foldl (fun a e => assign (key e) (f e) a) acc) ↔
      k ∈ keys acc ∨ k ∈ l.map key := by
  induction l generalizing acc with
  | nil => simp
  | cons e rest ih =>
    simp only [List.foldl_cons, ih, mem_keys_assign, List.map_cons, List.mem_cons]
    tauto

theorem nodup_keys_foldl_assign {E : Type} (key : E → K) (f : E → V) (l : List E)
    (acc : List (K × V)) (h : (keys acc).Nodup) :
    (keys (l.foldl (fun a e => assign (key e) (f e) a) acc)).Nodup := by
  induction l generalizing acc with
  | nil => exact h
  | cons e rest ih =>
    simp only [List.foldl_cons]
    exact ih _ (nodup_keys_assign _ _ _ h)

end AssignLemmas

namespace InvertedIndex

section SearchWord

variable {F : Type} [Mul F] [Div F] [NatCast F]

theorem tfidf_congr (idf : F) (lens lens' : List (Int × Nat)) (e : Int × Nat)
    (h : ∀ d : Int, (lookup d lens).getD 0 = (lookup d lens').getD 0) :
    tfidf idf lens e = tfidf idf lens' e := by
  unfold tfidf
  rw [h e.1]

theorem foldl_searchWordStep (idf : F) (lens0 : List (Int × Nat)) (postings : List (Int × Nat))
    (acc : List (Int × F)) (lens : List (Int × Nat))
    (h : ∀ d : Int, (lookup d lens).getD 0 = (lookup d lens0).getD 0) :
    (postings.foldl (searchWordStep idf) (acc, lens)).1 =
        postings.foldl (fun a e => assign e.1 (tfidf idf lens0 e) a) acc ∧
      ∀ d : Int,
        (lookup d (postings.foldl (searchWordStep idf) (acc, lens)).2).getD 0 =
          (lookup d lens0).getD 0 := by
  induction postings generalizing acc lens with
  | nil => exact ⟨rfl, h⟩
  | cons e rest ih =>
    simp only [List.foldl_cons]
    have hstep : searchWordStep idf (acc, lens) e =
        (assign e.1 (tfidf idf lens0 e) acc, (subscript e.1 0 lens).2) := by
      simp only [searchWordStep, tfidf, subscript_fst, h e.1]
    rw [hstep]
    apply ih
    intro d
    rw [lookup_subscript_snd, h d]

theorem searchWord_fst (log : F → F) (idx : InvertedIndex) (word : List Char) :
    (searchWord log idx word).1 = wordScores log idx word := by
  unfold searchWord wordScores
  cases lookup word idx.index with
  | none => rfl
  | some postings =>
    exact (foldl_searchWordStep _ idx.documentLengths postings [] idx.documentLengths
      (fun _ => rfl)).1

theorem searchWord_snd (log : F → F) (idx : InvertedIndex) (word : List Char) :
    SameView (searchWord log idx word).2 idx := by
  unfold searchWord
  cases lookup word idx.index with
  | none => exact ⟨rfl, rfl, fun _ => rfl⟩
  | some postings =>
    exact ⟨rfl, rfl, (foldl_searchWordStep _ idx.documentLengths postings []
      idx.documentLengths (fun _ => rfl)).2⟩

theorem wordScores_congr (log : F → F) (a b : InvertedIndex) (word : List Char)
    (h : SameView a b) : wordScores log a word = wordScores log b word := by
  obtain ⟨h1, h2, h3⟩ := h
  unfold wordScores
  rw [h1, h2]
  cases lookup word b.index with
  | none => rfl
  | some postings =>
    have : ∀ idf : F, (fun (acc : List (Int × F)) (e : Int × Nat) =>
        assign e.1 (tfidf idf a.documentLengths e) acc) =
        (fun acc e => assign e.1 (tfidf idf b.documentLengths e) acc) := by
      intro idf
      funext acc e
      rw [tfidf_congr idf _ _ e h3]
    simp only [this]

theorem mem_keys_wordScores (log : F → F) (idx : InvertedIndex) (word : List Char) (d : Int) :
    d ∈ keys (wordScores log idx word) ↔ (stored idx.index word d).isSome = true := by
  unfold wordScores stored
  cases lookup word idx.index with
  | none => simp [keys]
  | some postings =>
    rw [mem_keys_foldl_assign (fun e : Int × Nat => e.1)]
    simp only [Option.some_bind, lookup_isSome_iff]
    simp [keys]

theorem nodup_keys_wordScores (log : F → F) (idx : InvertedIndex) (word : List Char) :
    (keys (wordScores log idx word)).Nodup := by
  unfold wordScores
  cases lookup word idx.index with
  | none => simp [keys]
  | some postings =>
    exact nodup_keys_foldl_assign (fun e : Int × Nat => e.1) _ _ _ (by simp [keys])

end SearchWord

end InvertedIndex
namespace InvertedIndex

theorem lookup_increment (index : List (List Char × List (Int × Nat))) (w w' : List Char)
    (d : Int) :
    lookup w' (increment index w d) =
      if w' = w then
        some (assign d (((lookup d ((lookup w index).getD [])).getD 0) + 1)
          ((lookup w index).getD []))
      else lookup w' index := by
  unfold increment
  simp only [lookup_assign, subscript_fst]

theorem keysNodup_increment (index : List (List Char × List (Int × Nat))) (w : List Char)
    (d : Int) (h : KeysNodup index) : KeysNodup (increment index w d) := by
  intro w' postings hp
  rw [lookup_increment] at hp
  by_cases hw : w' = w
  · simp only [hw, if_true, Option.some.injEq] at hp
    subst hp
    apply nodup_keys_assign
    cases hl : lookup w index with
    | none => simp [keys]
    | some inner => exact h w inner hl
  · simp only [hw, if_false] at hp
    exact h w' postings hp

theorem keysNodup_addDocumentLoop (d : Int) (ws : List (List Char))
    (st : List (List Char × List (Int × Nat)) × Nat) (h : KeysNodup st.1) :
    KeysNodup (addDocumentLoop d ws st).1 := by
  induction ws generalizing st with
  | nil => exact h
  | cons w ws ih =>
    rw [addDocumentLoop_cons]
    exact ih _ (keysNodup_increment _ _ _ h)

theorem keysNodup_addAll (calls : List (Int × List Char)) :
    KeysNodup (addAll empty calls).index := by
  induction calls using List.reverseRecOn with
  | nil =>
    intro w postings hp
    simp [addAll, empty, lookup] at hp
  | append_singleton calls c ih =>
    rw [addAll_append]
    exact keysNodup_addDocumentLoop _ _ _ ih

theorem occurrences_eq_zero_of_not_mem (w : List Char) (d : Int)
    (calls : List (Int × List Char)) (h : ∀ c ∈ calls, w ∉ tokens c.2) :
    occurrences w d calls = 0 := by
  unfold occurrences
  apply List.sum_eq_zero
  intro n hn
  simp only [List.mem_map, List.mem_filter] at hn
  obtain ⟨c, ⟨hc, _⟩, rfl⟩ := hn
  exact List.count_eq_zero.mpr (h c hc)

end InvertedIndex
namespace InvertedIndex

theorem sameView_refl (a : InvertedIndex) : SameView a a := ⟨rfl, rfl, fun _ => rfl⟩

theorem sameView_trans (a b c : InvertedIndex) (h1 : SameView a b) (h2 : SameView b c) :
    SameView a c :=
  ⟨h1.1.trans h2.1, h1.2.1.trans h2.2.1, fun d => (h1.2.2 d).trans (h2.2.2 d)⟩

section IntersectAdd

variable {F : Type} [Add F]

theorem intersectAdd_cons (a : Int) (b : F) (rest wr : List (Int × F)) :
    intersectAdd ((a, b) :: rest) wr =
      match lookup a wr with
      | some s => (a, b + s) :: intersectAdd rest wr
      | none => intersectAdd rest wr := by
  unfold intersectAdd
  rw [List.filterMap_cons]
  cases lookup a wr <;> rfl

theorem keys_intersectAdd_sublist (c wr : List (Int × F)) :
    (keys (intersectAdd c wr)).Sublist (keys c) := by
  induction c with
  | nil => simp [intersectAdd, keys]
  | cons e rest ih =>
    obtain ⟨a, b⟩ := e
    rw [intersectAdd_cons]
    cases lookup a wr with
    | none => exact List.Sublist.cons _ ih
    | some s => exact List.Sublist.cons₂ _ ih

theorem mem_keys_intersectAdd (c wr : List (Int × F)) (d : Int) :
    d ∈ keys (intersectAdd c wr) ↔ d ∈ keys c ∧ d ∈ keys wr := by
  induction c with
  | nil => simp [intersectAdd, keys]
  | cons e rest ih =>
    obtain ⟨a, b⟩ := e
    rw [intersectAdd_cons]
    cases hl : lookup a wr with
    | none =>
      have hn : a ∉ keys wr := (lookup_eq_none_iff a wr).mp hl
      simp only [ih]
      constructor
      · rintro ⟨h1, h2⟩
        exact ⟨by simp [keys] at h1 ⊢; exact Or.inr h1, h2⟩
      · rintro ⟨h1, h2⟩
        refine ⟨?_, h2⟩
        simp only [keys, List.map_cons, List.mem_cons] at h1
        rcases h1 with h1 | h1
        · exact absurd (h1 ▸ h2) hn
        · exact h1
    | some s =>
      have hm : a ∈ keys wr := (lookup_isSome_iff a wr).mp (by simp [hl])
      simp only [keys, List.map_cons, List.mem_cons] at ih ⊢
      rw [ih]
      constructor
      · rintro (h | h)
        · exact ⟨Or.inl h, h ▸ hm⟩
        · exact ⟨Or.inr h.1, h.2⟩
      · rintro ⟨h | h, h2⟩
        · exact Or.inl h
        · exact Or.inr ⟨h, h2⟩

theorem lookup_intersectAdd (c wr : List (Int × F)) (d : Int) :
    lookup d (intersectAdd c wr) =
      match lookup d c, lookup d wr with
      | some a, some b => some (a + b)
      | _, _ => none := by
  induction c with
  | nil => simp [intersectAdd, lookup]
  | cons e rest ih =>
    obtain ⟨a, b⟩ := e
    rw [intersectAdd_cons]
    by_cases had : a = d
    · subst had
      cases hl : lookup a wr with
      | none =>
        simp only [ih, hl, lookup, if_true]
        cases lookup a rest <;> rfl
      | some s => simp [lookup]
    · cases hl : lookup a wr with
      | none => simp only [ih, lookup, had, if_false]
      | some s => simp only [ih, lookup, had, if_false]

theorem nodup_keys_intersectAdd (c wr : List (Int × F)) (h : (keys c).Nodup) :
    (keys (intersectAdd c wr)).Nodup :=
  List.Nodup.sublist (keys_intersectAdd_sublist c wr) h

end IntersectAdd

end InvertedIndex
namespace InvertedIndex

theorem searchWord_fst_of_sameView {F : Type} [Mul F] [Div F] [NatCast F] (log : F → F)
    (ix idx : InvertedIndex) (word : List Char) (h : SameView ix idx) :
    (searchWord log ix word).1 = wordScores log idx word := by
  rw [searchWord_fst, wordScores_congr log ix idx word h]

section PhraseFold

variable {F : Type} [Add F] [Mul F] [Div F] [NatCast F]

theorem foldl_searchPhraseStep (log : F → F) (idx : InvertedIndex) (ts : List (List Char))
    (comb : List (Int × F)) (ix : InvertedIndex) (h : SameView ix idx) :
    (ts.foldl (searchPhraseStep log) (comb, false, ix)).1 =
        ts.foldl (fun c t => intersectAdd c (wordScores log idx t)) comb ∧
      SameView (ts.foldl (searchPhraseStep log) (comb, false, ix)).2.2 idx := by
  induction ts generalizing comb ix with
  | nil => exact ⟨rfl, h⟩
  | cons t rest ih =>
    simp only [List.foldl_cons]
    have hstep : searchPhraseStep log (comb, false, ix) t =
        (intersectAdd comb (wordScores log idx t), false, (searchWord log ix t).2) := by
      simp only [searchPhraseStep, searchWord_fst_of_sameView log ix idx t h]
      rfl
    rw [hstep]
    exact ih _ _ (sameView_trans _ _ _ (searchWord_snd log ix t) h)

theorem searchPhrase_nil (log : F → F) (idx : InvertedIndex) (phrase : List Char)
    (h : tokens phrase = []) : (searchPhrase log idx phrase).1 = [] := by
  unfold searchPhrase
  rw [h]
  rfl

theorem searchPhrase_cons (log : F → F) (idx : InvertedIndex) (phrase : List Char)
    (t : List Char) (rest : List (List Char)) (h : tokens phrase = t :: rest) :
    (searchPhrase log idx phrase).1 =
      rest.foldl (fun c t' => intersectAdd c (wordScores log idx t')) (wordScores log idx t) := by
  unfold searchPhrase
  rw [h]
  simp only [List.foldl_cons]
  have hstep : searchPhraseStep log (([] : List (Int × F)), true, idx) t =
      (wordScores log idx t, false, (searchWord log idx t).2) := by
    simp only [searchPhraseStep, searchWord_fst]
    rfl
  rw [hstep]
  exact (foldl_searchPhraseStep log idx rest _ _ (searchWord_snd log idx t)).1

end PhraseFold

section IntersectFold

variable {F : Type} [AddMonoid F] {T : Type}

theorem mem_keys_foldl_intersectAdd (g : T → List (Int × F)) (rest : List T)
    (c0 : List (Int × F)) (d : Int) :
    d ∈ keys (rest.foldl (fun c t => intersectAdd c (g t)) c0) ↔
      d ∈ keys c0 ∧ ∀ t ∈ rest, d ∈ keys (g t) := by
  induction rest generalizing c0 with
  | nil => simp
  | cons t rest ih =>
    simp only [List.foldl_cons, ih, mem_keys_intersectAdd, List.mem_cons, forall_eq_or_imp]
    tauto

theorem lookup_foldl_intersectAdd (g : T → List (Int × F)) (rest : List T)
    (c0 : List (Int × F)) (d : Int) (a : F) (ha : lookup d c0 = some a)
    (hall : ∀ t ∈ rest, d ∈ keys (g t)) :
    lookup d (rest.foldl (fun c t => intersectAdd c (g t)) c0) =
      some (a + (rest.map (fun t => (lookup d (g t)).getD 0)).sum) := by
  induction rest generalizing c0 a with
  | nil => simp [ha]
  | cons t rest ih =>
    simp only [List.foldl_cons, List.map_cons, List.sum_cons]
    have ht : d ∈ keys (g t) := hall t (List.mem_cons_self _ _)
    have hs : (lookup d (g t)).isSome = true := (lookup_isSome_iff d (g t)).mpr ht
    obtain ⟨b, hb⟩ := Option.isSome_iff_exists.mp hs
    have hl : lookup d (intersectAdd c0 (g t)) = some (a + b) := by
      rw [lookup_intersectAdd, ha, hb]
    rw [ih _ (a + b) hl (fun t' ht' => hall t' (List.mem_cons_of_mem _ ht')), hb]
    simp [add_assoc]

end IntersectFold

/-- C6. For every index state: the result of `searchPhrase` is empty for a phrase without
tokens; for a phrase with at least one token its keys are exactly the ids that are keys of
`searchWord(t)` for every token `t`, and the score of such an id is the sum over the
tokens, with multiplicity, of its `searchWord` scores (over the reals). -/
theorem searchPhrase_spec (idx : InvertedIndex) (phrase : List Char) :
    (tokens phrase = [] → (searchPhrase Real.log idx phrase).1 = []) ∧
    (tokens phrase ≠ [] →
      (∀ d : Int, d ∈ keys (searchPhrase Real.log idx phrase).1 ↔
        ∀ t ∈ tokens phrase, d ∈ keys (searchWord Real.log idx t).1) ∧
      (∀ d : Int, d ∈ keys (searchPhrase Real.log idx phrase).1 →
        lookup d (searchPhrase Real.log idx phrase).1 =
          some (((tokens phrase).map
            (fun t => (lookup d (searchWord Real.log idx t).1).getD 0)).sum))) := by
  refine ⟨searchPhrase_nil Real.log idx phrase, ?_⟩
  intro hne
  cases hts : tokens phrase with
  | nil => exact absurd hts hne
  | cons t rest =>
    have hkeys : ∀ d : Int, d ∈ keys (searchPhrase Real.log idx phrase).1 ↔
        ∀ t' ∈ t :: rest, d ∈ keys (searchWord Real.log idx t').1 := by
      intro d
      rw [searchPhrase_cons Real.log idx phrase t rest hts, mem_keys_foldl_intersectAdd]
      simp only [searchWord_fst, List.mem_cons, forall_eq_or_imp]
    refine ⟨hkeys, ?_⟩
    intro d hd
    have hall := (hkeys d).mp hd
    have ht : d ∈ keys (wordScores Real.log idx t) := by
      have := hall t (List.mem_cons_self _ _)
      rwa [searchWord_fst] at this
    obtain ⟨a, ha⟩ := Option.isSome_iff_exists.mp ((lookup_isSome_iff d _).mpr ht)
    rw [searchPhrase_cons Real.log idx phrase t rest hts,
      lookup_foldl_intersectAdd _ rest _ d a ha
        (fun t' ht' => by
          have := hall t' (List.mem_cons_of_mem _ ht')
          rwa [searchWord_fst] at this)]
    simp only [searchWord_fst, List.map_cons, List.sum_cons, ha, Option.getD_some]

/-- The statement C6 at the sample documents, the phrase "search engine" and document 2. -/
theorem searchPhrase_spec_witness :
    lookup 2 (searchPhrase Real.log (addAll empty sampleDocuments) "search engine".toList).1 =
      some (((tokens "search engine".toList).map
        (fun t => (lookup 2 (searchWord Real.log (addAll empty sampleDocuments) t).1).getD
          0)).sum) :=
  ((searchPhrase_spec (addAll empty sampleDocuments) "search engine".toList).2
    (by decide)).2 2 (by decide)

end InvertedIndex

theorem assign_assign {K : Type} {V : Type} [DecidableEq K] (k : K) (v v' : V)
    (m : List (K × V)) : assign k v (assign k v' m) = assign k v m := by
  induction m with
  | nil => simp [assign]
  | cons p rest ih =>
    obtain ⟨a, b⟩ := p
    by_cases h : a = k
    · simp [assign, h]
    · simp [assign, h, ih]

namespace InvertedIndex

section AddScore

variable {F : Type} [Zero F] [Add F]

theorem addScore_eq (results : List (Int × F)) (e : Int × F) :
    addScore results e = assign e.1 ((lookup e.1 results).getD 0 + e.2) results := by
  unfold addScore subscript
  cases lookup e.1 results with
  | none => simp only [assign_assign, Option.getD_none]
  | some v => rfl

theorem mem_keys_foldl_addScore (wr results : List (Int × F)) (d : Int) :
    d ∈ keys (wr.foldl addScore results) ↔ d ∈ keys results ∨ d ∈ keys wr := by
  induction wr generalizing results with
  | nil => simp [keys]
  | cons e rest ih =>
    simp only [List.foldl_cons, ih, addScore_eq, mem_keys_assign]
    simp only [keys, List.map_cons, List.mem_cons]
    tauto

theorem nodup_keys_foldl_addScore (wr results : List (Int × F)) (h : (keys results).Nodup) :
    (keys (wr.foldl addScore results)).Nodup := by
  induction wr generalizing results with
  | nil => exact h
  | cons e rest ih =>
    simp only [List.foldl_cons]
    apply ih
    rw [addScore_eq]
    exact nodup_keys_assign _ _ _ h

theorem lookup_foldl_addScore (wr results : List (Int × F)) (d : Int)
    (hn : (keys wr).Nodup) :
    lookup d (wr.foldl addScore results) =
      match lookup d wr with
      | some s => some ((lookup d results).getD 0 + s)
      | none => lookup d results := by
  induction wr generalizing results with
  | nil => simp [lookup]
  | cons e rest ih =>
    obtain ⟨a, b⟩ := e
    simp only [keys, List.map_cons, List.nodup_cons] at hn
    simp only [List.foldl_cons]
    rw [ih _ hn.2, addScore_eq]
    simp only [lookup, lookup_assign]
    by_cases h : a = d
    · subst h
      have hnone : lookup a rest = none := (lookup_eq_none_iff a rest).mpr hn.1
      simp [hnone]
    · have h' : ¬ d = a := fun e => h e.symm
      simp only [h, h', if_false]

end AddScore

section RankingFold

variable {F : Type} [Zero F] [Add F] [Mul F] [Div F] [NatCast F]

theorem foldl_searchWithRankingStep (log : F → F) (idx : InvertedIndex)
    (ts : List (List Char)) (results : List (Int × F)) (ix : InvertedIndex)
    (h : SameView ix idx) :
    (ts.foldl (searchWithRankingStep log) (results, ix)).1 =
        ts.foldl (fun res t => (wordScores log idx t).foldl addScore res) results ∧
      SameView (ts.foldl (searchWithRankingStep log) (results, ix)).2 idx := by
  induction ts generalizing results ix with
  | nil => exact ⟨rfl, h⟩
  | cons t rest ih =>
    simp only [List.foldl_cons]
    have hstep : searchWithRankingStep log (results, ix) t =
        ((wordScores log idx t).foldl addScore results, (searchWord log ix t).2) := by
      simp only [searchWithRankingStep, searchWord_fst_of_sameView log ix idx t h]
    rw [hstep]
    exact ih _ _ (sameView_trans _ _ _ (searchWord_snd log ix t) h)

theorem searchWithRanking_fst (log : F → F) (idx : InvertedIndex) (query : List Char) :
    (searchWithRanking log idx query).1 =
      (tokens query).foldl (fun res t => (wordScores log idx t).foldl addScore res) [] :=
  (foldl_searchWithRankingStep log idx (tokens query) [] idx (sameView_refl idx)).1

theorem searchWithRanking_snd (log : F → F) (idx : InvertedIndex) (query : List Char) :
    SameView (searchWithRanking log idx query).2 idx :=
  (foldl_searchWithRankingStep log idx (tokens query) [] idx (sameView_refl idx)).2

end RankingFold

section UnionFold

variable {F : Type} [AddMonoid F] {T : Type}

theorem mem_keys_foldl_union (g : T → List (Int × F)) (ts : List T)
    (res0 : List (Int × F)) (d : Int) :
    d ∈ keys (ts.foldl (fun res t => (g t).foldl addScore res) res0) ↔
      d ∈ keys res0 ∨ ∃ t ∈ ts, d ∈ keys (g t) := by
  induction ts generalizing res0 with
  | nil => simp
  | cons t rest ih =>
    simp only [List.foldl_cons, ih, mem_keys_foldl_addScore, List.mem_cons, exists_eq_or_imp]
    tauto

theorem nodup_keys_foldl_union (g : T → List (Int × F)) (ts : List T)
    (res0 : List (Int × F)) (h : (keys res0).Nodup) :
    (keys (ts.foldl (fun res t => (g t).foldl addScore res) res0)).Nodup := by
  induction ts generalizing res0 with
  | nil => exact h
  | cons t rest ih =>
    simp only [List.foldl_cons]
    exact ih _ (nodup_keys_foldl_addScore _ _ h)

theorem lookup_foldl_union (g : T → List (Int × F)) (ts : List T)
    (res0 : List (Int × F)) (d : Int) (hn : ∀ t ∈ ts, (keys (g t)).Nodup) :
    (lookup d (ts.foldl (fun res t => (g t).foldl addScore res) res0)).getD 0 =
      (lookup d res0).getD 0 + (ts.filterMap (fun t => lookup d (g t))).sum := by
  induction ts generalizing res0 with
  | nil => simp
  | cons t rest ih =>
    simp only [List.foldl_cons]
    rw [ih _ (fun t' ht' => hn t' (List.mem_cons_of_mem _ ht')),
      lookup_foldl_addScore _ _ _ (hn t (List.mem_cons_self _ _)), List.filterMap_cons]
    cases lookup d (g t) with
    | none => rfl
    | some s => simp [add_assoc]

end UnionFold

/-- C7. For every index state and every query: the keys of `searchWithRanking(query)` are
exactly the ids that are a key of `searchWord(t)` for some token `t` of the query, each id
once, and the score of such an id is the sum, over the tokens (with multiplicity) whose
`searchWord` result holds the id, of its `searchWord` scores (over the reals). -/
theorem searchWithRanking_spec (idx : InvertedIndex) (query : List Char) :
    (∀ d : Int, d ∈ keys (searchWithRanking Real.log idx query).1 ↔
      ∃ t ∈ tokens query, d ∈ keys (searchWord Real.log idx t).1) ∧
    (keys (searchWithRanking Real.log idx query).1).Nodup ∧
    (∀ d : Int, d ∈ keys (searchWithRanking Real.log idx query).1 →
      lookup d (searchWithRanking Real.log idx query).1 =
        some (((tokens query).filterMap
          (fun t => lookup d (searchWord Real.log idx t).1)).sum)) := by
  rw [searchWithRanking_fst]
  simp only [searchWord_fst]
  refine ⟨?_, ?_, ?_⟩
  · intro d
    rw [mem_keys_foldl_union]
    simp [keys]
  · exact nodup_keys_foldl_union _ _ _ (by simp [keys])
  · intro d hd
    have hv := lookup_foldl_union (fun t => wordScores Real.log idx t) (tokens query) [] d
      (fun t _ => nodup_keys_wordScores Real.log idx t)
    obtain ⟨x, hx⟩ := Option.isSome_iff_exists.mp ((lookup_isSome_iff d _).mpr hd)
    rw [hx] at hv ⊢
    simp only [Option.getD_some, lookup, Option.getD_none, zero_add] at hv
    rw [hv]

/-- The statement C7 at the sample documents, the query "search engine" and document 3. -/
theorem searchWithRanking_spec_witness :
    lookup 3
        (searchWithRanking Real.log (addAll empty sampleDocuments) "search engine".toList).1 =
      some (((tokens "search engine".toList).filterMap
        (fun t => lookup 3 (searchWord Real.log (addAll empty sampleDocuments) t).1)).sum) :=
  (searchWithRanking_spec (addAll empty sampleDocuments) "search engine".toList).2.2 3
    (by decide)

end InvertedIndex

theorem perm_three {α : Type} (x y z : α) (l : List α) (h : l.Perm [x, y, z]) :
    l = [x, y, z] ∨ l = [y, x, z] ∨ l = [z, y, x] ∨ l = [y, z, x] ∨ l = [z, x, y] ∨
      l = [x, z, y] := by
  have hm := List.mem_permutations.mpr h
  have hp : [x, y, z].permutations =
      [[x, y, z], [y, x, z], [z, y, x], [y, z, x], [z, x, y], [x, z, y]] := by
    simp [List.permutations, List.permutationsAux_cons, List.permutationsAux_nil,
      List.permutationsAux2]
  rw [hp] at hm
  simpa using hm

namespace InvertedIndex

theorem tokens_cat_dog : tokens "cat dog".toList = ["cat".toList, "dog".toList] := by decide

theorem tokens_cat : tokens "cat".toList = ["cat".toList] := by decide

theorem tokens_dog : tokens "dog".toList = ["dog".toList] := by decide

theorem cat_ne_dog : ¬ "cat".toList = "dog".toList := by decide

theorem dog_ne_cat : ¬ "dog".toList = "cat".toList := by decide

theorem addAll_ABC (a b c : Int) (hab : a ≠ b) (hac : a ≠ c) (hbc : b ≠ c) :
    addAll empty [(a, "cat dog".toList), (b, "cat".toList), (c, "dog".toList)] =
      ⟨[("cat".toList, [(a, 1), (b, 1)]), ("dog".toList, [(a, 1), (c, 1)])],
        [(a, 2), (b, 1), (c, 1)], 3⟩ := by
  have hba : ¬ b = a := fun e => hab e.symm
  have hca : ¬ c = a := fun e => hac e.symm
  have hcb : ¬ c = b := fun e => hbc e.symm
  simp only [addAll, List.foldl_cons, List.foldl_nil, addDocument, tokens_cat_dog, tokens_cat,
    tokens_dog, addDocumentLoop, increment, subscript, assign, lookup, empty, cat_ne_dog,
    dog_ne_cat, if_true, if_false, hab, hac, hbc, hba, hca, hcb, Option.getD]

theorem addAll_BAC (a b c : Int) (hab : a ≠ b) (hac : a ≠ c) (hbc : b ≠ c) :
    addAll empty [(b, "cat".toList), (a, "cat dog".toList), (c, "dog".toList)] =
      ⟨[("cat".toList, [(b, 1), (a, 1)]), ("dog".toList, [(a, 1), (c, 1)])],
        [(b, 1), (a, 2), (c, 1)], 3⟩ := by
  have hba : ¬ b = a := fun e => hab e.symm
  have hca : ¬ c = a := fun e => hac e.symm
  have hcb : ¬ c = b := fun e => hbc e.symm
  simp only [addAll, List.foldl_cons, List.foldl_nil, addDocument, tokens_cat_dog, tokens_cat,
    tokens_dog, addDocumentLoop, increment, subscript, assign, lookup, empty, cat_ne_dog,
    dog_ne_cat, if_true, if_false, hab, hac, hbc, hba, hca, hcb, Option.getD]

theorem addAll_CBA (a b c : Int) (hab : a ≠ b) (hac : a ≠ c) (hbc : b ≠ c) :
    addAll empty [(c, "dog".toList), (b, "cat".toList), (a, "cat dog".toList)] =
      ⟨[("dog".toList, [(c, 1), (a, 1)]), ("cat".toList, [(b, 1), (a, 1)])],
        [(c, 1), (b, 1), (a, 2)], 3⟩ := by
  have hba : ¬ b = a := fun e => hab e.symm
  have hca : ¬ c = a := fun e => hac e.symm
  have hcb : ¬ c = b := fun e => hbc e.symm
  simp only [addAll, List.foldl_cons, List.foldl_nil, addDocument, tokens_cat_dog, tokens_cat,
    tokens_dog, addDocumentLoop, increment, subscript, assign, lookup, empty, cat_ne_dog,
    dog_ne_cat, if_true, if_false, hab, hac, hbc, hba, hca, hcb, Option.getD]

theorem addAll_BCA (a b c : Int) (hab : a ≠ b) (hac : a ≠ c) (hbc : b ≠ c) :
    addAll empty [(b, "cat".toList), (c, "dog".toList), (a, "cat dog".toList)] =
      ⟨[("cat".toList, [(b, 1), (a, 1)]), ("dog".toList, [(c, 1), (a, 1)])],
        [(b, 1), (c, 1), (a, 2)], 3⟩ := by
  have hba : ¬ b = a := fun e => hab e.symm
  have hca : ¬ c = a := fun e => hac e.symm
  have hcb : ¬ c = b := fun e => hbc e.symm
  simp only [addAll, List.foldl_cons, List.foldl_nil, addDocument, tokens_cat_dog, tokens_cat,
    tokens_dog, addDocumentLoop, increment, subscript, assign, lookup, empty, cat_ne_dog,
    dog_ne_cat, if_true, if_false, hab, hac, hbc, hba, hca, hcb, Option.getD]

theorem addAll_CAB (a b c : Int) (hab : a ≠ b) (hac : a ≠ c) (hbc : b ≠ c) :
    addAll empty [(c, "dog".toList), (a, "cat dog".toList), (b, "cat".toList)] =
      ⟨[("dog".toList, [(c, 1), (a, 1)]), ("cat".toList, [(a, 1), (b, 1)])],
        [(c, 1), (a, 2), (b, 1)], 3⟩ := by
  have hba : ¬ b = a := fun e => hab e.symm
  have hca : ¬ c = a := fun e => hac e.symm
  have hcb : ¬ c = b := fun e => hbc e.symm
  simp only [addAll, List.foldl_cons, List.foldl_nil, addDocument, tokens_cat_dog, tokens_cat,
    tokens_dog, addDocumentLoop, increment, subscript, assign, lookup, empty, cat_ne_dog,
    dog_ne_cat, if_true, if_false, hab, hac, hbc, hba, hca, hcb, Option.getD]

theorem addAll_ACB (a b c : Int) (hab : a ≠ b) (hac : a ≠ c) (hbc : b ≠ c) :
    addAll empty [(a, "cat dog".toList), (c, "dog".toList), (b, "cat".toList)] =
      ⟨[("cat".toList, [(a, 1), (b, 1)]), ("dog".toList, [(a, 1), (c, 1)])],
        [(a, 2), (c, 1), (b, 1)], 3⟩ := by
  have hba : ¬ b = a := fun e => hab e.symm
  have hca : ¬ c = a := fun e => hac e.symm
  have hcb : ¬ c = b := fun e => hbc e.symm
  simp only [addAll, List.foldl_cons, List.foldl_nil, addDocument, tokens_cat_dog, tokens_cat,
    tokens_dog, addDocumentLoop, increment, subscript, assign, lookup, empty, cat_ne_dog,
    dog_ne_cat, if_true, if_false, hab, hac, hbc, hba, hca, hcb, Option.getD]

/-- C8. When the documents "cat dog", "cat" and "dog" are added once each, in any order,
to an empty index under pairwise distinct ids `a`, `b`, `c`: `searchWithRanking("cat dog")`
returns exactly the three ids, every score it returns is nonzero (over the reals), and
`searchPhrase("cat dog")` returns the id `a` only. -/
theorem cat_dog_union_intersection (a b c : Int) (hab : a ≠ b) (hac : a ≠ c) (hbc : b ≠ c)
    (calls : List (Int × List Char))
    (hcalls : calls.Perm [(a, "cat dog".toList), (b, "cat".toList), (c, "dog".toList)]) :
    (∀ d : Int, d ∈ keys (searchWithRanking Real.log (addAll empty calls) "cat dog".toList).1 ↔
      d = a ∨ d = b ∨ d = c) ∧
    (∀ p ∈ (searchWithRanking Real.log (addAll empty calls) "cat dog".toList).1, p.2 ≠ 0) ∧
    keys (searchPhrase Real.log (addAll empty calls) "cat dog".toList).1 = [a] := by
  have hba : ¬ b = a := fun e => hab e.symm
  have hca : ¬ c = a := fun e => hac e.symm
  have hcb : ¬ c = b := fun e => hbc e.symm
  rw [searchWithRanking_fst, searchPhrase_cons Real.log _ _ _ _ tokens_cat_dog]
  rcases perm_three _ _ _ _ hcalls with h | h | h | h | h | h <;> subst h <;>
    (first | rw [addAll_ABC a b c hab hac hbc] | rw [addAll_BAC a b c hab hac hbc] | rw [addAll_CBA a b c hab hac hbc] | rw [addAll_BCA a b c hab hac hbc] | rw [addAll_CAB a b c hab hac hbc] | rw [addAll_ACB a b c hab hac hbc]) <;>
    simp only [List.foldl_cons, List.foldl_nil, tokens_cat_dog, assign, lookup, cat_ne_dog,
      dog_ne_cat, if_true, if_false, hab, hac, hbc, hba, hca, hcb, Option.getD, wordScores,
      addScore_eq, tfidf, List.length_cons, List.length_nil, intersectAdd,
      List.filterMap_cons, List.filterMap_nil, keys, List.map_cons, List.map_nil] <;>
    refine ⟨fun d => ?_, fun p hp => ?_, trivial⟩
  all_goals first
    | (refine Iff.intro ?_ ?_ <;>
         simp only [List.mem_cons, List.mem_singleton, List.not_mem_nil, or_false] <;> tauto)
    | (simp only [List.mem_cons, List.mem_singleton, List.not_mem_nil, or_false] at hp
       rcases hp with rfl | rfl | rfl <;> norm_num)

/-- The statement C8 at the ids 1, 2 and 3, the documents added in the order listed. -/
theorem cat_dog_union_intersection_witness :
    keys (searchPhrase Real.log
      (addAll empty [(1, "cat dog".toList), (2, "cat".toList), (3, "dog".toList)])
      "cat dog".toList).1 = [1] :=
  (cat_dog_union_intersection 1 2 3 (by decide) (by decide) (by decide) _
    (List.Perm.refl _)).2.2

end InvertedIndex

theorem insertSorted_perm {α : Type} (comp : α → α → Bool) (x : α) (l : List α) :
    (insertSorted comp x l).Perm (x :: l) := by
  induction l with
  | nil => exact List.Perm.refl _
  | cons y ys ih =>
    unfold insertSorted
    by_cases h : comp x y = true
    · simp [h]
    · simp only [h]
      exact (List.Perm.cons y ih).trans (List.Perm.swap x y ys)

theorem sortBy_perm {α : Type} (comp : α → α → Bool) (l : List α) : (sortBy comp l).Perm l := by
  induction l with
  | nil => exact List.Perm.refl _
  | cons x xs ih =>
    unfold sortBy
    rw [List.foldr_cons]
    exact (insertSorted_perm comp x _).trans (List.Perm.cons x ih)

namespace SearchEngine

theorem mem_search_ids (e : SearchEngine) (query : List Char) (d : Int) :
    d ∈ (e.search Real.log query).1.map (fun r => r.1) ↔
      d ∈ keys (e.invertedIndex.searchWithRanking Real.log query).1 := by
  unfold search keys
  simp only [List.map_map]
  have hp := (sortBy_perm (fun a b : Int × ℝ => decide (b.2 < a.2))
    (e.invertedIndex.searchWithRanking Real.log query).1).map Prod.fst
  exact hp.mem_iff

/-- C9, as the code behaves. After the three sample documents, the keys of
`searchWithRanking("engine")`, and likewise the document ids printed by `search("engine")`,
are exactly 2 and 3: the token "engine" occurs in document 2 and in document 3, while
document 1 holds the token "engine." only. -/
theorem search_engine_sample :
    (∀ d : Int,
      d ∈ keys (sampleEngine.invertedIndex.searchWithRanking Real.log "engine".toList).1 ↔
        d = 2 ∨ d = 3) ∧
    (∀ d : Int,
      d ∈ (sampleEngine.search Real.log "engine".toList).1.map (fun r => r.1) ↔
        d = 2 ∨ d = 3) := by
  have hk : keys (sampleEngine.invertedIndex.searchWithRanking Real.log "engine".toList).1 =
      [2, 3] := by decide
  constructor
  · intro d
    rw [hk]
    simp
  · intro d
    rw [mem_search_ids, hk]
    simp

/-- C9, as stated, fails: after the three sample documents, document 3 is among the
results of `search("engine")`, so the result set is not document 2 only. -/
theorem search_engine_not_only_document_2 :
    (3 : Int) ∈ keys (sampleEngine.invertedIndex.searchWithRanking Real.log "engine".toList).1 ∧
    ¬ (∀ d : Int,
      d ∈ keys (sampleEngine.invertedIndex.searchWithRanking Real.log "engine".toList).1 ↔
        d = 2) ∧
    ¬ (∀ d : Int,
      d ∈ (sampleEngine.search Real.log "engine".toList).1.map (fun r => r.1) ↔ d = 2) := by
  have hk : keys (sampleEngine.invertedIndex.searchWithRanking Real.log "engine".toList).1 =
      [2, 3] := by decide
  refine ⟨by rw [hk]; simp, ?_, ?_⟩
  · intro h
    have h3 := (h 3).mp (by rw [hk]; simp)
    exact absurd h3 (by decide)
  · intro h
    have h3 := (h 3).mp (by rw [mem_search_ids, hk]; simp)
    exact absurd h3 (by decide)

end SearchEngine

theorem forall_mem_foldl_assign {K : Type} {V : Type} [DecidableEq K] {E : Type}
    (key : E → K) (f : E → V) (P : V → Prop) (l : List E) (acc : List (K × V))
    (hacc : ∀ p ∈ acc, P p.2) (hf : ∀ e ∈ l, P (f e)) :
    ∀ p ∈ l.foldl (fun a e => assign (key e) (f e) a) acc, P p.2 := by
  induction l generalizing acc with
  | nil => exact hacc
  | cons e rest ih =>
    simp only [List.foldl_cons]
    apply ih
    · have hassign : ∀ (m : List (K × V)), (∀ p ∈ m, P p.2) →
          ∀ p ∈ assign (key e) (f e) m, P p.2 := by
        intro m
        induction m with
        | nil =>
          intro _ p hp
          simp only [assign, List.mem_singleton] at hp
          subst hp
          exact hf e (List.mem_cons_self _ _)
        | cons q m ihm =>
          intro hm p hp
          obtain ⟨a, b⟩ := q
          by_cases h : a = key e
          · simp only [assign, h, if_true, List.mem_cons] at hp
            rcases hp with rfl | hp
            · exact hf e (List.mem_cons_self _ _)
            · exact hm p (List.mem_cons_of_mem _ hp)
          · simp only [assign, h, if_false, List.mem_cons] at hp
            rcases hp with rfl | hp
            · exact hm _ (List.mem_cons_self _ _)
            · exact ihm (fun p' hp' => hm p' (List.mem_cons_of_mem _ hp')) p hp
      exact hassign acc hacc
    · exact fun e' he' => hf e' (List.mem_cons_of_mem _ he')

namespace InvertedIndex

theorem occurrences_pos_of_mem (w : List Char) (calls : List (Int × List Char))
    (c : Int × List Char) (hc : c ∈ calls) (hw : w ∈ tokens c.2) :
    0 < occurrences w c.1 calls := by
  unfold occurrences
  have hmem : (tokens c.2).count w ∈
      ((calls.filter (fun c' => c'.1 = c.1)).map (fun c' => (tokens c'.2).count w)) := by
    apply List.mem_map.mpr
    exact ⟨c, List.mem_filter.mpr ⟨hc, by simp⟩, rfl⟩
  have hle := List.single_le_sum (fun _ _ => Nat.zero_le _) _ hmem
  have hpos : 0 < (tokens c.2).count w := List.count_pos_iff.mpr hw
  omega

theorem mem_ids_of_occurrences_ne_zero (w : List Char) (d : Int)
    (calls : List (Int × List Char)) (h : occurrences w d calls ≠ 0) :
    d ∈ calls.map Prod.fst := by
  by_contra hd
  apply h
  unfold occurrences
  have hf : calls.filter (fun c => c.1 = d) = [] := by
    apply List.filter_eq_nil_iff.mpr
    intro c hc hcd
    apply hd
    simp only [decide_eq_true_eq] at hcd
    exact hcd ▸ List.mem_map_of_mem Prod.fst hc
  rw [hf]
  rfl

theorem length_postings_of_word_in_every_document (calls : List (Int × List Char))
    (w : List Char) (hids : (calls.map Prod.fst).Nodup)
    (hall : ∀ c ∈ calls, w ∈ tokens c.2) (postings : List (Int × Nat))
    (hp : lookup w (addAll empty calls).index = some postings) :
    postings.length = calls.length := by
  have hn := keysNodup_addAll calls w postings hp
  have hmem : ∀ d : Int, d ∈ keys postings ↔ d ∈ calls.map Prod.fst := by
    intro d
    rw [← lookup_isSome_iff]
    have hs : stored (addAll empty calls).index w d = lookup d postings := by
      simp [stored, hp]
    rw [← hs, stored_eq_occurrences calls w d]
    constructor
    · intro h
      apply mem_ids_of_occurrences_ne_zero w d calls
      intro h0
      simp [h0] at h
    · intro h
      obtain ⟨c, hc, rfl⟩ := List.mem_map.mp h
      have hpos := occurrences_pos_of_mem w calls c hc (hall c hc)
      have hne : occurrences w c.1 calls ≠ 0 := by omega
      simp [hne]
  have hperm : (keys postings).Perm (calls.map Prod.fst) :=
    (List.perm_ext_iff_of_nodup hn hids).mpr hmem
  have := hperm.length_eq
  simpa [keys] using this

/-- C10, as the code behaves. When every document id is named by at most one
`addDocument` call and `w` is a token of every added text, the idf that `searchWord(w)`
computes is `ln(1) = 0` and every score it returns is zero (over the reals). -/
theorem idf_zero_of_word_in_every_document (calls : List (Int × List Char)) (w : List Char)
    (hids : (calls.map Prod.fst).Nodup) (hall : ∀ c ∈ calls, w ∈ tokens c.2) :
    (∀ postings : List (Int × Nat), lookup w (addAll empty calls).index = some postings →
      ((addAll empty calls).totalDocuments : ℝ) / (postings.length : ℝ) = 1 ∧
      Real.log (((addAll empty calls).totalDocuments : ℝ) / (postings.length : ℝ)) = 0) ∧
    (∀ p ∈ (searchWord Real.log (addAll empty calls) w).1, p.2 = 0) := by
  have hidf : ∀ postings : List (Int × Nat),
      lookup w (addAll empty calls).index = some postings →
      ((addAll empty calls).totalDocuments : ℝ) / (postings.length : ℝ) = 1 := by
    intro postings hp
    rw [length_postings_of_word_in_every_document calls w hids hall postings hp,
      totalDocuments_eq_length calls]
    have hne : calls ≠ [] := by
      rintro rfl
      simp [addAll, empty, lookup] at hp
    have hlen : (calls.length : ℝ) ≠ 0 := by
      exact_mod_cast (List.length_pos.mpr hne).ne'
    exact div_self hlen
  refine ⟨fun postings hp => ⟨hidf postings hp, by rw [hidf postings hp, Real.log_one]⟩, ?_⟩
  rw [searchWord_fst]
  unfold wordScores
  cases hp : lookup w (addAll empty calls).index with
  | none => simp
  | some postings =>
    simp only
    apply forall_mem_foldl_assign (fun e : Int × Nat => e.1) _ (fun v : ℝ => v = 0)
    · simp
    · intro e _
      simp only [tfidf, hidf postings hp, Real.log_one, mul_zero]

/-- The statement C10 (as amended) at the documents "the cat" (id 1) and "the dog" (id 2) and
the word "the", whose entry in the index is the map from 1 to 1 and from 2 to 1. -/
theorem idf_zero_of_word_in_every_document_witness :
    (([(1, "the cat".toList), (2, "the dog".toList)] : List (Int × List Char)).map
      Prod.fst).Nodup ∧
    ((addAll empty [(1, "the cat".toList), (2, "the dog".toList)]).totalDocuments : ℝ) /
        ((([(1, 1), (2, 1)] : List (Int × Nat)).length : Nat) : ℝ) = 1 ∧
    Real.log
      (((addAll empty [(1, "the cat".toList), (2, "the dog".toList)]).totalDocuments : ℝ) /
        ((([(1, 1), (2, 1)] : List (Int × Nat)).length : Nat) : ℝ)) = 0 :=
  ⟨by decide,
    (idf_zero_of_word_in_every_document [(1, "the cat".toList), (2, "the dog".toList)]
      "the".toList (by decide) (by decide)).1 [(1, 1), (2, 1)] (by decide)⟩

/-- C10, as stated, fails: when document 1 is added twice with the text "a", the word "a"
is a token of every added document, yet `totalDocuments` is 2 and `index["a"]` has one
entry, so the idf is `ln 2` and document 1 gets the nonzero score `(2 / 1) * ln 2`. -/
theorem idf_nonzero_when_id_added_twice :
    (∀ c ∈ [((1 : Int), "a".toList), (1, "a".toList)], "a".toList ∈ tokens c.2) ∧
    lookup 1 (searchWord Real.log (addAll empty [(1, "a".toList), (1, "a".toList)])
      "a".toList).1 = some (2 / 1 * Real.log (2 / 1)) ∧
    (2 : ℝ) / 1 * Real.log (2 / 1) ≠ 0 := by
  refine ⟨by decide, ?_, ?_⟩
  · have hidx : addAll empty [(1, "a".toList), (1, "a".toList)] =
        ⟨[("a".toList, [(1, 2)])], [(1, 1)], 2⟩ := rfl
    rw [searchWord_fst, hidx]
    simp [wordScores, lookup, assign, tfidf]
  · have h2 : (0 : ℝ) < Real.log (2 / 1) := Real.log_pos (by norm_num)
    positivity

end InvertedIndex
namespace InvertedIndex

theorem wordScores_zero_of_ratio_one (idx : InvertedIndex) (w : List Char)
    (h : ∀ postings : List (Int × Nat), lookup w idx.index = some postings →
      (idx.totalDocuments : ℝ) / (postings.length : ℝ) = 1) :
    ∀ p ∈ wordScores Real.log idx w, p.2 = 0 := by
  unfold wordScores
  cases hp : lookup w idx.index with
  | none => simp
  | some postings =>
    simp only
    apply forall_mem_foldl_assign (fun e : Int × Nat => e.1) _ (fun v : ℝ => v = 0)
    · simp
    · intro e _
      simp only [tfidf, h postings hp, Real.log_one, mul_zero]

theorem wordScores_nil_of_not_mem (calls : List (Int × List Char)) (w : List Char)
    (h : ∀ c ∈ calls, w ∉ tokens c.2) : wordScores Real.log (addAll empty calls) w = [] := by
  apply List.eq_nil_iff_forall_not_mem.mpr
  intro p hp
  have hk : p.1 ∈ keys (wordScores Real.log (addAll empty calls) w) :=
    List.mem_map_of_mem Prod.fst hp
  rw [mem_keys_wordScores, stored_eq_occurrences,
    occurrences_eq_zero_of_not_mem w p.1 calls h] at hk
  simp at hk

/-- C11. In an index to which exactly one document has been added, for every word `w`: if
`w` is a token of the document then `searchWord(w)` returns the document alone, the idf it
computes is `ln(1 / 1) = 0` and the score is 0 (over the reals); otherwise `searchWord(w)`
is empty. -/
theorem single_document_scores (id : Int) (text w : List Char) :
    (w ∈ tokens text →
      (∀ postings : List (Int × Nat),
        lookup w (addAll empty [(id, text)]).index = some postings →
          Real.log (((addAll empty [(id, text)]).totalDocuments : ℝ) /
            (postings.length : ℝ)) = 0) ∧
      (∀ d : Int, d ∈ keys (searchWord Real.log (addAll empty [(id, text)]) w).1 ↔ d = id) ∧
      (∀ p ∈ (searchWord Real.log (addAll empty [(id, text)]) w).1, p.2 = 0)) ∧
    (w ∉ tokens text → (searchWord Real.log (addAll empty [(id, text)]) w).1 = []) := by
  rw [searchWord_fst]
  constructor
  · intro hw
    have hall : ∀ c ∈ [(id, text)], w ∈ tokens c.2 := by
      intro c hc
      rw [List.mem_singleton] at hc
      subst hc
      exact hw
    have hratio : ∀ postings : List (Int × Nat),
        lookup w (addAll empty [(id, text)]).index = some postings →
        ((addAll empty [(id, text)]).totalDocuments : ℝ) / (postings.length : ℝ) = 1 := by
      intro postings hp
      rw [length_postings_of_word_in_every_document [(id, text)] w (by simp) hall postings hp,
        totalDocuments_eq_length]
      simp
    refine ⟨fun postings hp => by rw [hratio postings hp, Real.log_one], ?_,
      wordScores_zero_of_ratio_one _ w hratio⟩
    intro d
    rw [mem_keys_wordScores, stored_eq_occurrences]
    have hpos : 0 < (tokens text).count w := List.count_pos_iff.mpr hw
    by_cases hd : id = d
    · subst hd
      have : occurrences w id [(id, text)] = (tokens text).count w := by
        simp [occurrences]
      rw [this]
      have hne : (tokens text).count w ≠ 0 := by omega
      simp [hne]
    · have : occurrences w d [(id, text)] = 0 := by
        simp [occurrences, hd]
      rw [this]
      have hd' : ¬ d = id := fun e => hd e.symm
      simp [hd']
  · intro hw
    apply wordScores_nil_of_not_mem
    intro c hc
    rw [List.mem_singleton] at hc
    subst hc
    exact hw

/-- The statement C11 at the single document "hello world" (id 7): the word "hello" gets the
idf 0, and the word "bye" has an empty result. -/
theorem single_document_scores_witness :
    Real.log (((addAll empty [(7, "hello world".toList)]).totalDocuments : ℝ) /
        ((([(7, 1)] : List (Int × Nat)).length : Nat) : ℝ)) = 0 ∧
    (searchWord Real.log (addAll empty [(7, "hello world".toList)]) "bye".toList).1 = [] :=
  ⟨((single_document_scores 7 "hello world".toList "hello".toList).1 (by decide)).1
      [(7, 1)] (by decide),
    (single_document_scores 7 "hello world".toList "bye".toList).2 (by decide)⟩

end InvertedIndex

theorem insertSorted_pairwise (x : Int × ℝ) (l : List (Int × ℝ))
    (h : l.Pairwise (fun a b => b.2 ≤ a.2)) :
    (insertSorted (fun a b : Int × ℝ => decide (b.2 < a.2)) x l).Pairwise
      (fun a b => b.2 ≤ a.2) := by
  induction l with
  | nil => simp [insertSorted]
  | cons y ys ih =>
    rw [List.pairwise_cons] at h
    unfold insertSorted
    by_cases hc : y.2 < x.2
    · simp only [hc, decide_True, if_true]
      refine List.Pairwise.cons ?_ (List.Pairwise.cons h.1 h.2)
      intro z hz
      rw [List.mem_cons] at hz
      rcases hz with rfl | hz
      · exact le_of_lt hc
      · exact le_trans (h.1 z hz) (le_of_lt hc)
    · simp only [hc, decide_False]
      refine List.Pairwise.cons ?_ (ih h.2)
      intro z hz
      have hz' := (insertSorted_perm _ x ys).mem_iff.mp hz
      rw [List.mem_cons] at hz'
      rcases hz' with rfl | hz'
      · exact not_lt.mp hc
      · exact h.1 z hz'

theorem sortBy_pairwise (l : List (Int × ℝ)) :
    (sortBy (fun a b : Int × ℝ => decide (b.2 < a.2)) l).Pairwise (fun a b => b.2 ≤ a.2) := by
  induction l with
  | nil => simp [sortBy]
  | cons x xs ih =>
    unfold sortBy
    rw [List.foldr_cons]
    exact insertSorted_pairwise x _ ih

namespace SearchEngine

theorem search_entries (e : SearchEngine) (query : List Char) :
    (e.search Real.log query).1.map (fun r => (r.1, r.2.1)) =
      sortBy (fun a b : Int × ℝ => decide (b.2 < a.2))
        (e.invertedIndex.searchWithRanking Real.log query).1 := by
  unfold search
  simp only [List.map_map]
  exact (List.map_congr_left (fun _ _ => rfl)).trans (List.map_id _)

/-- C12. For every engine state and every query with a non-empty `searchWithRanking`
result, the `(id, score)` pairs that `search` prints are a permutation of the entries of
`searchWithRanking(query)`, no id is printed twice, and the scores are in descending order:
each printed score is at least every score printed after it (over the reals). -/
theorem search_sorted_permutation (e : SearchEngine) (query : List Char)
    (hne : (e.invertedIndex.searchWithRanking Real.log query).1 ≠ []) :
    (e.search Real.log query).1 ≠ [] ∧
    ((e.search Real.log query).1.map (fun r => (r.1, r.2.1))).Perm
      (e.invertedIndex.searchWithRanking Real.log query).1 ∧
    ((e.search Real.log query).1.map (fun r => r.1)).Nodup ∧
    (e.search Real.log query).1.Pairwise (fun a b => b.2.1 ≤ a.2.1) := by
  have hperm : ((e.search Real.log query).1.map (fun r => (r.1, r.2.1))).Perm
      (e.invertedIndex.searchWithRanking Real.log query).1 := by
    rw [search_entries]
    exact sortBy_perm _ _
  refine ⟨?_, hperm, ?_, ?_⟩
  · intro hnil
    rw [hnil] at hperm
    exact hne (List.Perm.eq_nil (List.Perm.symm hperm))
  · have hk : (keys (e.invertedIndex.searchWithRanking Real.log query).1).Nodup := by
      rw [InvertedIndex.searchWithRanking_fst]
      exact InvertedIndex.nodup_keys_foldl_union _ _ _ (by simp [keys])
    have hp2 := hperm.map Prod.fst
    rw [List.map_map] at hp2
    exact (List.Perm.nodup_iff hp2).mpr hk
  · have hs := sortBy_pairwise (e.invertedIndex.searchWithRanking Real.log query).1
    rw [← search_entries, List.pairwise_map] at hs
    exact hs

/-- The statement C12 at the sample engine and the query "engine". -/
theorem search_sorted_permutation_witness :
    (sampleEngine.search Real.log "engine".toList).1.Pairwise (fun a b => b.2.1 ≤ a.2.1) :=
  (search_sorted_permutation sampleEngine "engine".toList (by decide)).2.2.2

end SearchEngine
namespace SearchEngine

theorem addAll_invertedIndex (e : SearchEngine) (calls : List (Int × List Char)) :
    (e.addAll calls).invertedIndex = e.invertedIndex.addAll calls := by
  induction calls generalizing e with
  | nil => rfl
  | cons c calls ih =>
    have h : e.addAll (c :: calls) = (e.addDocument c.1 c.2).addAll calls := rfl
    rw [h, ih]
    rfl

theorem searchPhrase_entries (e : SearchEngine) (phrase : List Char) :
    (e.searchPhrase Real.log phrase).1.map (fun r => (r.1, r.2.1)) =
      (e.invertedIndex.searchPhrase Real.log phrase).1 := by
  unfold searchPhrase
  simp only [List.map_map]
  exact (List.map_congr_left (fun _ _ => rfl)).trans (List.map_id _)

/-- C13 on a failing input. With the documents 1 = "a b b", 2 = "a", 3 = "c", the method
`searchPhrase("a")` prints document 1 with score `(1 / 3) * ln(3 / 2)` before document 2
with the larger score `(1 / 1) * ln(3 / 2)`: the results are not in descending order.  With
the texts of documents 1 and 2 exchanged the same two ids are printed in the same order and
the scores are exchanged, so printing the map in the opposite order does not help. -/
theorem searchPhrase_prints_unsorted :
    ((new.addAll [(1, "a b b".toList), (2, "a".toList), (3, "c".toList)]).searchPhrase
        Real.log "a".toList).1.map (fun r => (r.1, r.2.1)) =
      [(1, 1 / 3 * Real.log (3 / 2)), (2, 1 / 1 * Real.log (3 / 2))] ∧
    ((new.addAll [(1, "a".toList), (2, "a b b".toList), (3, "c".toList)]).searchPhrase
        Real.log "a".toList).1.map (fun r => (r.1, r.2.1)) =
      [(1, 1 / 1 * Real.log (3 / 2)), (2, 1 / 3 * Real.log (3 / 2))] ∧
    (1 : ℝ) / 3 * Real.log (3 / 2) < 1 / 1 * Real.log (3 / 2) ∧
    ¬ ((new.addAll [(1, "a b b".toList), (2, "a".toList), (3, "c".toList)]).searchPhrase
        Real.log "a".toList).1.Pairwise (fun a b => b.2.1 ≤ a.2.1) := by
  have hlog : (0 : ℝ) < Real.log (3 / 2) := Real.log_pos (by norm_num)
  have hlt : (1 : ℝ) / 3 * Real.log (3 / 2) < 1 / 1 * Real.log (3 / 2) := by
    apply mul_lt_mul_of_pos_right _ hlog
    norm_num
  have hta : tokens "a".toList = ["a".toList] := by decide
  have hx : (new.addAll [(1, "a b b".toList), (2, "a".toList), (3, "c".toList)]).invertedIndex =
      ⟨[("a".toList, [(1, 1), (2, 1)]), ("b".toList, [(1, 2)]), ("c".toList, [(3, 1)])],
        [(1, 3), (2, 1), (3, 1)], 3⟩ := rfl
  have hy : (new.addAll [(1, "a".toList), (2, "a b b".toList), (3, "c".toList)]).invertedIndex =
      ⟨[("a".toList, [(1, 1), (2, 1)]), ("b".toList, [(2, 2)]), ("c".toList, [(3, 1)])],
        [(1, 1), (2, 3), (3, 1)], 3⟩ := rfl
  have h1 : ((new.addAll [(1, "a b b".toList), (2, "a".toList), (3, "c".toList)]).searchPhrase
        Real.log "a".toList).1.map (fun r => (r.1, r.2.1)) =
      [(1, 1 / 3 * Real.log (3 / 2)), (2, 1 / 1 * Real.log (3 / 2))] := by
    rw [searchPhrase_entries, InvertedIndex.searchPhrase_cons Real.log _ _ _ _ hta, hx]
    simp [InvertedIndex.wordScores, lookup, assign, InvertedIndex.tfidf]
  refine ⟨h1, ?_, hlt, ?_⟩
  · rw [searchPhrase_entries, InvertedIndex.searchPhrase_cons Real.log _ _ _ _ hta, hy]
    simp [InvertedIndex.wordScores, lookup, assign, InvertedIndex.tfidf]
  · intro hs
    have hs' : (((new.addAll [(1, "a b b".toList), (2, "a".toList),
        (3, "c".toList)]).searchPhrase Real.log "a".toList).1.map
          (fun r => (r.1, r.2.1))).Pairwise (fun a b : Int × ℝ => b.2 ≤ a.2) := by
      rw [List.pairwise_map]
      exact hs
    rw [h1] at hs'
    simp only [List.pairwise_cons, List.mem_singleton, forall_eq] at hs'
    exact absurd hs'.1 (not_le.mpr hlt)

end SearchEngine

theorem lastText_eq_none_iff (d : Int) (calls : List (Int × List Char)) :
    InvertedIndex.lastText d calls = none ↔ d ∉ calls.map Prod.fst := by
  unfold InvertedIndex.lastText
  simp only [Option.map_eq_none', List.getLast?_eq_none_iff, List.filter_eq_nil_iff,
    decide_eq_true_eq, List.mem_map, not_exists, not_and]

namespace SearchEngine

theorem engine_addAll_append (e : SearchEngine) (calls : List (Int × List Char))
    (c : Int × List Char) : e.addAll (calls ++ [c]) = (e.addAll calls).addDocument c.1 c.2 := by
  simp [addAll, List.foldl_append]

theorem lookup_documentStore_addAll (calls : List (Int × List Char)) (id : Int) :
    lookup id (new.addAll calls).documentStore = InvertedIndex.lastText id calls := by
  induction calls using List.reverseRecOn with
  | nil => simp [addAll, new, lookup, InvertedIndex.lastText]
  | append_singleton calls c ih =>
    rw [engine_addAll_append, InvertedIndex.lastText_append]
    simp only [addDocument, lookup_assign]
    by_cases h : c.1 = id
    · subst h
      simp
    · have h' : ¬ id = c.1 := fun e => h e.symm
      simp [h, h', ih]

theorem nodup_keys_documentStore_addAll (calls : List (Int × List Char)) :
    (keys (new.addAll calls).documentStore).Nodup := by
  induction calls using List.reverseRecOn with
  | nil => simp [addAll, new, keys]
  | append_singleton calls c ih =>
    rw [engine_addAll_append]
    exact nodup_keys_assign _ _ _ ih

/-- C14. After any sequence of `addDocument` calls on a fresh engine, `displayDocument(id)`
reports "not found" exactly when no call names `id`; otherwise it yields the text of the
most recent call naming `id`, and the store holds exactly one entry for `id`.  A call
`addDocument(id, text)` leaves what `displayDocument` yields for any other id unchanged. -/
theorem displayDocument_addAll (calls : List (Int × List Char)) (id : Int) :
    ((new.addAll calls).displayDocument id = none ↔ id ∉ calls.map Prod.fst) ∧
    (new.addAll calls).displayDocument id = InvertedIndex.lastText id calls ∧
    (id ∈ calls.map Prod.fst → (keys (new.addAll calls).documentStore).count id = 1) ∧
    (∀ (e : SearchEngine) (text : List Char) (other : Int), other ≠ id →
      (e.addDocument id text).displayDocument other = e.displayDocument other) := by
  have hd : (new.addAll calls).displayDocument id = InvertedIndex.lastText id calls :=
    lookup_documentStore_addAll calls id
  refine ⟨?_, hd, ?_, ?_⟩
  · rw [hd]
    exact lastText_eq_none_iff id calls
  · intro hmem
    apply List.count_eq_one_of_mem (nodup_keys_documentStore_addAll calls)
    rw [← lookup_isSome_iff]
    have hne : InvertedIndex.lastText id calls ≠ none :=
      fun h => (lastText_eq_none_iff id calls).mp h hmem
    unfold displayDocument at hd
    rw [hd]
    cases hl : InvertedIndex.lastText id calls with
    | none => exact absurd hl hne
    | some t => rfl
  · intro e text other hne
    simp only [displayDocument, addDocument, lookup_assign, hne, if_false]

/-- The statement C14 at a store to which document 1 is added with "old" and then with "new",
and document 2 with "two". -/
theorem displayDocument_addAll_witness :
    (keys (new.addAll [(1, "old".toList), (2, "two".toList),
      (1, "new".toList)]).documentStore).count 1 = 1 :=
  (displayDocument_addAll [(1, "old".toList), (2, "two".toList), (1, "new".toList)] 1).2.2.1
    (by decide)

end SearchEngine
namespace Trie

/-- C15. After any sequence of `insert` calls on the empty trie, every node reached from
the root along a character path `s` has `isEndOfWord` true exactly when some inserted word
equals `s`; its `documentIDs` are exactly the ids that inserted `s`, without repetition;
so the set is non-empty when the flag is true and empty when the flag is false. -/
theorem node_invariant (ops : List (List Char × Int)) (s : List Char) (n : TrieNode)
    (h : descend (insertAll empty ops).root s = some n) :
    (n.isEndOfWord = true ↔ ∃ d : Int, (s, d) ∈ ops) ∧
    (∀ d : Int, d ∈ n.documentIDs ↔ (s, d) ∈ ops) ∧
    n.documentIDs.Nodup ∧
    (n.isEndOfWord = true → n.documentIDs ≠ []) ∧
    (n.isEndOfWord = false → n.documentIDs = []) := by
  have he : endAt (insertAll empty ops).root s = n.isEndOfWord := by
    simp [endAt, h]
  have hd : docsAt (insertAll empty ops).root s = n.documentIDs := by
    simp [docsAt, h]
  have hflag : n.isEndOfWord = true ↔ ∃ d : Int, (s, d) ∈ ops := by
    rw [← he, endAt_insertAll]
    simp [empty, endAt_new]
  have hdocs : ∀ d : Int, d ∈ n.documentIDs ↔ (s, d) ∈ ops := by
    intro d
    rw [← hd, mem_docsAt_insertAll]
    simp [empty, docsAt_new]
  refine ⟨hflag, hdocs, ?_, ?_, ?_⟩
  · rw [← hd]
    apply nodup_docsAt_insertAll
    intro w
    simp [empty, docsAt_new]
  · intro ht hnil
    obtain ⟨d, hmem⟩ := hflag.mp ht
    have := (hdocs d).mpr hmem
    rw [hnil] at this
    exact absurd this (List.not_mem_nil d)
  · intro hf
    apply List.eq_nil_iff_forall_not_mem.mpr
    intro d hmem
    have ht := hflag.mpr ⟨d, (hdocs d).mp hmem⟩
    rw [hf] at ht
    exact absurd ht (by decide)

/-- The statement C15 at the node of "ab" after the word "ab" was inserted under ids 1 and
2. -/
theorem node_invariant_witness :
    descend (insertAll empty [("ab".toList, 1), ("ab".toList, 2)]).root "ab".toList =
        some (TrieNode.mk [] true [1, 2]) ∧
    ((TrieNode.mk [] true [1, 2]).isEndOfWord = true ↔
      ∃ d : Int, ("ab".toList, d) ∈ [("ab".toList, (1 : Int)), ("ab".toList, 2)]) :=
  ⟨rfl, (node_invariant [("ab".toList, 1), ("ab".toList, 2)] "ab".toList
    (TrieNode.mk [] true [1, 2]) rfl).1⟩

end Trie

theorem lookup_of_mem {K : Type} {V : Type} [DecidableEq K] (m : List (K × V)) (k : K) (v : V)
    (hn : (keys m).Nodup) (h : (k, v) ∈ m) : lookup k m = some v := by
  induction m with
  | nil => simp at h
  | cons p rest ih =>
    obtain ⟨a, b⟩ := p
    simp only [keys, List.map_cons, List.nodup_cons] at hn
    rw [List.mem_cons] at h
    rcases h with h | h
    · simp only [Prod.mk.injEq] at h
      obtain ⟨rfl, rfl⟩ := h
      simp [lookup]
    · have hne : ¬ a = k := by
        rintro rfl
        exact hn.1 (List.mem_map_of_mem Prod.fst h)
      simp only [lookup, hne, if_false]
      exact ih hn.2 h

namespace Trie

theorem descend_append (n : TrieNode) (p s : List Char) :
    descend n (p ++ s) = (descend n p).bind (fun m => descend m s) := by
  induction p generalizing n with
  | nil => rfl
  | cons c p ih =>
    simp only [List.cons_append, descend]
    cases lookup c n.children with
    | none => rfl
    | some m => exact ih m

theorem endAt_of_descend (n m : TrieNode) (p s : List Char) (h : descend n p = some m) :
    endAt n (p ++ s) = endAt m s := by
  unfold endAt
  rw [descend_append, h]
  rfl

theorem childKeysNodup_new : ChildKeysNodup TrieNode.new := by
  intro s m h
  cases s with
  | nil =>
    simp only [descend, Option.some.injEq] at h
    subst h
    simp [TrieNode.new, TrieNode.children, keys]
  | cons c s => simp [descend_new] at h

theorem childKeysNodup_descend (n m : TrieNode) (p : List Char) (h : descend n p = some m)
    (hn : ChildKeysNodup n) : ChildKeysNodup m := by
  intro s m' hm
  apply hn (p ++ s) m'
  rw [descend_append, h]
  exact hm

theorem childKeysNodup_child (cs : List (Char × TrieNode)) (e : Bool) (ds : List Int)
    (ch : Char) (c : TrieNode) (hl : lookup ch cs = some c)
    (hn : ChildKeysNodup (TrieNode.mk cs e ds)) : ChildKeysNodup c :=
  childKeysNodup_descend (TrieNode.mk cs e ds) c [ch]
    (by simp [descend, TrieNode.children, hl]) hn

theorem childKeysNodup_insertAt (w : List Char) (n : TrieNode) (d : Int)
    (hn : ChildKeysNodup n) : ChildKeysNodup (insertAt n w d) := by
  induction w generalizing n with
  | nil =>
    intro s m h
    cases s with
    | nil =>
      simp only [descend, Option.some.injEq] at h
      subst h
      simpa [insertAt, TrieNode.children] using hn [] n rfl
    | cons c s =>
      apply hn (c :: s) m
      simpa [insertAt, descend, TrieNode.children] using h
  | cons ch w ih =>
    have hchild : ChildKeysNodup
        (match lookup ch n.children with
          | none => TrieNode.new
          | some c => c) := by
      cases hl : lookup ch n.children with
      | none => exact childKeysNodup_new
      | some c =>
        exact childKeysNodup_descend n c [ch] (by simp [descend, hl]) hn
    intro s m h
    cases s with
    | nil =>
      simp only [descend, Option.some.injEq] at h
      subst h
      simp only [insertAt, TrieNode.children]
      exact nodup_keys_assign _ _ _ (hn [] n rfl)
    | cons c s =>
      simp only [insertAt, descend, TrieNode.children, lookup_assign] at h
      by_cases hc : c = ch
      · simp only [hc, if_true] at h
        exact ih _ hchild s m h
      · simp only [hc, if_false] at h
        apply hn (c :: s) m
        simpa [descend] using h

theorem childKeysNodup_insertAll (t : Trie) (ops : List (List Char × Int))
    (h : ChildKeysNodup t.root) : ChildKeysNodup (insertAll t ops).root := by
  induction ops generalizing t with
  | nil => exact h
  | cons op ops ih =>
    rw [insertAll_cons]
    exact ih _ (childKeysNodup_insertAt _ _ _ h)

theorem autocomplete_spec (n : TrieNode) (pre : List Char) (results : List (List Char)) :
    ChildKeysNodup n →
      ∃ L : List (List Char), autocomplete n pre results = results ++ L ∧ L.Nodup ∧
        ∀ x ∈ L, ∃ s : List Char, x = pre ++ s ∧ endAt n s = true := by
  refine autocomplete.induct
    (fun n pre results => ChildKeysNodup n →
      ∃ L : List (List Char), autocomplete n pre results = results ++ L ∧ L.Nodup ∧
        ∀ x ∈ L, ∃ s : List Char, x = pre ++ s ∧ endAt n s = true)
    (fun cs pre results => (keys cs).Nodup →
      (∀ (ch : Char) (c : TrieNode), (ch, c) ∈ cs → ChildKeysNodup c) →
      ∃ L : List (List Char), autocompleteChildren cs pre results = results ++ L ∧ L.Nodup ∧
        ∀ x ∈ L, ∃ (ch : Char) (c : TrieNode) (s : List Char),
          (ch, c) ∈ cs ∧ x = pre ++ ch :: s ∧ endAt c s = true)
    ?_ ?_ ?_ n pre results
  · intro cs e ds pre results ih hn
    have hk : (keys cs).Nodup := by simpa [TrieNode.children] using hn [] _ rfl
    have hch : ∀ (ch : Char) (c : TrieNode), (ch, c) ∈ cs → ChildKeysNodup c :=
      fun ch c hmem => childKeysNodup_child cs e ds ch c (lookup_of_mem cs ch c hk hmem) hn
    obtain ⟨L, hL, hnd, hel⟩ := ih hk hch
    have hsub : ∀ x ∈ L, ∃ s : List Char, x = pre ++ s ∧
        endAt (TrieNode.mk cs e ds) s = true := by
      intro x hx
      obtain ⟨ch, c, s, hmem, hxe, hend⟩ := hel x hx
      refine ⟨ch :: s, hxe, ?_⟩
      rw [endAt_cons]
      simp only [TrieNode.children, lookup_of_mem cs ch c hk hmem]
      exact hend
    rw [autocomplete, hL]
    by_cases he : e = true
    · subst he
      refine ⟨pre :: L, by simp, ?_, ?_⟩
      · refine List.nodup_cons.mpr ⟨?_, hnd⟩
        intro hmem
        obtain ⟨ch, c, s, _, hxe, _⟩ := hel pre hmem
        have := congrArg List.length hxe
        simp at this
      · intro x hx
        rw [List.mem_cons] at hx
        rcases hx with rfl | hx
        · exact ⟨[], by simp, rfl⟩
        · exact hsub x hx
    · refine ⟨L, by simp [he], hnd, hsub⟩
  · intro pre results _ _
    exact ⟨[], by simp [autocompleteChildren], List.nodup_nil, by simp⟩
  · intro ch c rest pre results ih1 ih2 hk hch
    simp only [keys, List.map_cons, List.nodup_cons] at hk
    obtain ⟨L1, hL1, hnd1, hel1⟩ := ih1 (hch ch c (List.mem_cons_self _ _))
    obtain ⟨L2, hL2, hnd2, hel2⟩ := ih2 hk.2
      (fun ch' c' hmem => hch ch' c' (List.mem_cons_of_mem _ hmem))
    refine ⟨L1 ++ L2, ?_, ?_, ?_⟩
    · rw [autocompleteChildren, hL2, hL1, List.append_assoc]
    · rw [List.nodup_append]
      refine ⟨hnd1, hnd2, ?_⟩
      intro x hx1 hx2
      obtain ⟨s, hxs, _⟩ := hel1 x hx1
      obtain ⟨ch', c', s', hmem, hxs', _⟩ := hel2 x hx2
      rw [hxs, List.append_assoc] at hxs'
      have h := List.append_cancel_left hxs'
      simp only [List.singleton_append, List.cons.injEq] at h
      apply hk.1
      rw [h.1]
      exact List.mem_map_of_mem Prod.fst hmem
    · intro x hx
      rw [List.mem_append] at hx
      rcases hx with hx | hx
      · obtain ⟨s, hxs, hend⟩ := hel1 x hx
        exact ⟨ch, c, s, List.mem_cons_self _ _, by simpa using hxs, hend⟩
      · obtain ⟨ch', c', s', hmem, hxs', hend⟩ := hel2 x hx
        exact ⟨ch', c', s', List.mem_cons_of_mem _ hmem, hxs', hend⟩

/-- C16. After any sequence of `insert` calls on the empty trie, every string that
`getAutocompleteSuggestions(p)` returns starts with `p` and is an inserted word, no string
is returned twice, and the result is empty when no inserted word starts with `p`. -/
theorem suggestions_sound (ops : List (List Char × Int)) (p : List Char) :
    (∀ x ∈ (insertAll empty ops).getAutocompleteSuggestions p,
      p <+: x ∧ ∃ d : Int, (x, d) ∈ ops) ∧
    ((insertAll empty ops).getAutocompleteSuggestions p).Nodup ∧
    ((∀ (w : List Char) (d : Int), (w, d) ∈ ops → ¬ p <+: w) →
      (insertAll empty ops).getAutocompleteSuggestions p = []) := by
  have hsound : ∀ x ∈ (insertAll empty ops).getAutocompleteSuggestions p,
      p <+: x ∧ ∃ d : Int, (x, d) ∈ ops := by
    intro x hx
    unfold getAutocompleteSuggestions at hx
    cases hd : descend (insertAll empty ops).root p with
    | none => simp [hd] at hx
    | some m =>
      rw [hd] at hx
      have hwf : ChildKeysNodup m :=
        childKeysNodup_descend _ m p hd (childKeysNodup_insertAll empty ops childKeysNodup_new)
      obtain ⟨L, hL, _, hel⟩ := autocomplete_spec m p [] hwf
      simp only [hL, List.nil_append] at hx
      obtain ⟨s, rfl, hend⟩ := hel x hx
      refine ⟨List.prefix_append p s, ?_⟩
      rw [← endAt_of_descend _ m p s hd, endAt_insertAll] at hend
      simpa [empty, endAt_new] using hend
  refine ⟨hsound, ?_, ?_⟩
  · unfold getAutocompleteSuggestions
    cases hd : descend (insertAll empty ops).root p with
    | none => simp
    | some m =>
      have hwf : ChildKeysNodup m :=
        childKeysNodup_descend _ m p hd (childKeysNodup_insertAll empty ops childKeysNodup_new)
      obtain ⟨L, hL, hnd, _⟩ := autocomplete_spec m p [] hwf
      simpa [hL] using hnd
  · intro hnone
    apply List.eq_nil_iff_forall_not_mem.mpr
    intro x hx
    obtain ⟨hp, d, hd⟩ := hsound x hx
    exact hnone x d hd hp

/-- The statement C16 at the words "search" (inserted under ids 1 and 2) and "sea" and the
prefix "sear": the suggestion "search" is an inserted word that starts with "sear". -/
theorem suggestions_sound_witness :
    "sear".toList <+: "search".toList ∧
    ∃ d : Int, ("search".toList, d) ∈
      [("search".toList, (1 : Int)), ("sea".toList, 1), ("search".toList, 2)] :=
  (suggestions_sound [("search".toList, 1), ("sea".toList, 1), ("search".toList, 2)]
    "sear".toList).1 "search".toList (by decide)

end Trie

namespace Trie

theorem insertAll_append (t : Trie) (a b : List (List Char × Int)) :
    insertAll t (a ++ b) = insertAll (insertAll t a) b := by
  simp [insertAll, List.foldl_append]

theorem mem_search_insertAll (ops : List (List Char × Int)) (w : List Char) (d : Int) :
    d ∈ (insertAll empty ops).search w ↔ (w, d) ∈ ops := by
  rw [search_eq]
  by_cases he : endAt (insertAll empty ops).root w = true
  · rw [if_pos he, mem_docsAt_insertAll]
    simp [empty, docsAt_new]
  · simp only [he]
    have hno := mt (endAt_insertAll empty ops w).mpr he
    constructor
    · intro hd
      simp at hd
    · intro hd
      exact absurd (Or.inr ⟨d, hd⟩) hno

end Trie

namespace InvertedIndex

theorem exists_call_of_occurrences_ne_zero (w : List Char) (d : Int)
    (calls : List (Int × List Char)) (h : occurrences w d calls ≠ 0) :
    ∃ c ∈ calls, c.1 = d ∧ w ∈ tokens c.2 := by
  unfold occurrences at h
  by_contra hno
  apply h
  apply List.sum_eq_zero
  intro n hn
  simp only [List.mem_map, List.mem_filter, decide_eq_true_eq] at hn
  obtain ⟨c, ⟨hc, hcd⟩, rfl⟩ := hn
  apply List.count_eq_zero.mpr
  intro hw
  exact hno ⟨c, hc, hcd, hw⟩

theorem stored_isSome_iff (calls : List (Int × List Char)) (w : List Char) (d : Int) :
    (stored (addAll empty calls).index w d).isSome = true ↔
      ∃ c ∈ calls, c.1 = d ∧ w ∈ tokens c.2 := by
  rw [stored_eq_occurrences]
  constructor
  · intro h
    apply exists_call_of_occurrences_ne_zero
    intro h0
    simp [h0] at h
  · rintro ⟨c, hc, rfl, hw⟩
    have hpos := occurrences_pos_of_mem w calls c hc hw
    have hne : occurrences w c.1 calls ≠ 0 := by omega
    simp [hne]

end InvertedIndex

namespace SearchEngine

theorem addDocument_trie (e : SearchEngine) (id : Int) (content : List Char) :
    (e.addDocument id content).trie =
      Trie.insertAll e.trie ((tokens content).map (fun word => (word, id))) := by
  simp only [addDocument, Trie.insertAll, List.foldl_map]

theorem addAll_trie (e : SearchEngine) (calls : List (Int × List Char)) :
    (e.addAll calls).trie = Trie.insertAll e.trie (tokenInsertions calls) := by
  induction calls generalizing e with
  | nil => rfl
  | cons c calls ih =>
    have h : e.addAll (c :: calls) = (e.addDocument c.1 c.2).addAll calls := rfl
    rw [h, ih, addDocument_trie, tokenInsertions, Trie.insertAll_append]

theorem mem_tokenInsertions (calls : List (Int × List Char)) (w : List Char) (d : Int) :
    (w, d) ∈ tokenInsertions calls ↔ ∃ c ∈ calls, c.1 = d ∧ w ∈ tokens c.2 := by
  induction calls with
  | nil => simp [tokenInsertions]
  | cons c calls ih =>
    simp only [tokenInsertions, List.mem_append, List.mem_map, Prod.mk.injEq, ih,
      List.mem_cons, exists_eq_or_imp]
    constructor
    · rintro (⟨a, ha, rfl, rfl⟩ | h)
      · exact Or.inl ⟨rfl, ha⟩
      · exact Or.inr h
    · rintro (⟨rfl, hw⟩ | h)
      · exact Or.inl ⟨w, hw, rfl, rfl⟩
      · exact Or.inr h

/-- C17. After any sequence of `addDocument` calls on a fresh engine, for every word `w`
and id `d`: `d` is in `trie.search(w)` exactly when the inverted index has an entry
`index[w][d]` (whose count is then at least 1), exactly when `w` is a token of some text
added under `d`; hence the keys of `searchWord(w)` are the elements of `trie.search(w)`. -/
theorem cross_index_consistency (calls : List (Int × List Char)) (w : List Char) (d : Int) :
    (d ∈ (new.addAll calls).trie.search w ↔
      ∃ n : Nat, InvertedIndex.stored (new.addAll calls).invertedIndex.index w d = some n ∧
        1 ≤ n) ∧
    (d ∈ (new.addAll calls).trie.search w ↔ ∃ c ∈ calls, c.1 = d ∧ w ∈ tokens c.2) ∧
    (d ∈ keys ((new.addAll calls).invertedIndex.searchWord Real.log w).1 ↔
      d ∈ (new.addAll calls).trie.search w) := by
  have htrie : d ∈ (new.addAll calls).trie.search w ↔
      ∃ c ∈ calls, c.1 = d ∧ w ∈ tokens c.2 := by
    rw [addAll_trie]
    exact (Trie.mem_search_insertAll _ w d).trans (mem_tokenInsertions calls w d)
  have hidx : (new.addAll calls).invertedIndex = InvertedIndex.addAll InvertedIndex.empty calls :=
    addAll_invertedIndex new calls
  have hsome : (InvertedIndex.stored (new.addAll calls).invertedIndex.index w d).isSome = true ↔
      ∃ c ∈ calls, c.1 = d ∧ w ∈ tokens c.2 := by
    rw [hidx]
    exact InvertedIndex.stored_isSome_iff calls w d
  refine ⟨?_, htrie, ?_⟩
  · rw [htrie, ← hsome]
    constructor
    · intro h
      obtain ⟨n, hn⟩ := Option.isSome_iff_exists.mp h
      refine ⟨n, hn, ?_⟩
      have hpos := InvertedIndex.positive_addAll calls w d
      rw [← hidx, hn] at hpos
      have hne : n ≠ 0 := fun e => hpos (by rw [e])
      omega
    · rintro ⟨n, hn, _⟩
      simp [hn]
  · rw [InvertedIndex.searchWord_fst, InvertedIndex.mem_keys_wordScores, hsome, htrie]

end SearchEngine

section ValueLemmas

variable {K : Type} {V : Type} [DecidableEq K]

theorem mem_of_lookup (k : K) (v : V) (m : List (K × V)) (h : lookup k m = some v) :
    (k, v) ∈ m := by
  induction m with
  | nil => simp [lookup] at h
  | cons p rest ih =>
    obtain ⟨a, b⟩ := p
    by_cases ha : a = k
    · simp only [lookup, ha, if_true, Option.some.injEq] at h
      subst ha
      subst h
      exact List.mem_cons_self _ _
    · simp only [lookup, ha, if_false] at h
      exact List.mem_cons_of_mem _ (ih h)

theorem forall_mem_assign (P : V → Prop) (k : K) (v : V) (m : List (K × V))
    (hm : ∀ p ∈ m, P p.2) (hv : P v) : ∀ p ∈ assign k v m, P p.2 := by
  induction m with
  | nil =>
    intro p hp
    simp only [assign, List.mem_singleton] at hp
    subst hp
    exact hv
  | cons q m ih =>
    intro p hp
    obtain ⟨a, b⟩ := q
    by_cases h : a = k
    · simp only [assign, h, if_true, List.mem_cons] at hp
      rcases hp with rfl | hp
      · exact hv
      · exact hm p (List.mem_cons_of_mem _ hp)
    · simp only [assign, h, if_false, List.mem_cons] at hp
      rcases hp with rfl | hp
      · exact hm _ (List.mem_cons_self _ _)
      · exact ih (fun p' hp' => hm p' (List.mem_cons_of_mem _ hp')) p hp

end ValueLemmas

namespace InvertedIndex

theorem postings_ne_nil_increment (index : List (List Char × List (Int × Nat)))
    (w : List Char) (d : Int)
    (h : ∀ (w' : List Char) (postings : List (Int × Nat)),
      lookup w' index = some postings → postings ≠ []) :
    ∀ (w' : List Char) (postings : List (Int × Nat)),
      lookup w' (increment index w d) = some postings → postings ≠ [] := by
  intro w' postings hp
  rw [lookup_increment] at hp
  by_cases hw : w' = w
  · simp only [hw, if_true, Option.some.injEq] at hp
    subst hp
    intro hnil
    have hmem : d ∈ keys (assign d
        (((lookup d ((lookup w index).getD [])).getD 0) + 1) ((lookup w index).getD [])) :=
      (mem_keys_assign d d _ _).mpr (Or.inl rfl)
    rw [hnil] at hmem
    simp [keys] at hmem
  · simp only [hw, if_false] at hp
    exact h w' postings hp

theorem postings_ne_nil_addDocumentLoop (d : Int) (ws : List (List Char))
    (st : List (List Char × List (Int × Nat)) × Nat)
    (h : ∀ (w' : List Char) (postings : List (Int × Nat)),
      lookup w' st.1 = some postings → postings ≠ []) :
    ∀ (w' : List Char) (postings : List (Int × Nat)),
      lookup w' (addDocumentLoop d ws st).1 = some postings → postings ≠ [] := by
  induction ws generalizing st with
  | nil => exact h
  | cons w ws ih =>
    rw [addDocumentLoop_cons]
    exact ih _ (postings_ne_nil_increment _ _ _ h)

theorem postings_ne_nil_addAll (calls : List (Int × List Char)) :
    ∀ (w : List Char) (postings : List (Int × Nat)),
      lookup w (addAll empty calls).index = some postings → postings ≠ [] := by
  induction calls using List.reverseRecOn with
  | nil =>
    intro w postings hp
    simp [addAll, empty, lookup] at hp
  | append_singleton calls c ih =>
    rw [addAll_append]
    exact postings_ne_nil_addDocumentLoop _ _ _ ih

theorem length_postings_le (calls : List (Int × List Char)) (w : List Char)
    (postings : List (Int × Nat)) (hp : lookup w (addAll empty calls).index = some postings) :
    postings.length ≤ calls.length := by
  have hn := keysNodup_addAll calls w postings hp
  have hsub : keys postings ⊆ calls.map Prod.fst := by
    intro d hd
    have hs : (stored (addAll empty calls).index w d).isSome = true := by
      simp only [stored, hp, Option.some_bind]
      exact (lookup_isSome_iff d postings).mpr hd
    obtain ⟨c, hc, rfl, _⟩ := (stored_isSome_iff calls w d).mp hs
    exact List.mem_map_of_mem Prod.fst hc
  have hle := (List.subperm_of_subset hn hsub).length_le
  simpa [keys] using hle

theorem one_le_ratio (calls : List (Int × List Char)) (w : List Char)
    (postings : List (Int × Nat)) (hp : lookup w (addAll empty calls).index = some postings) :
    (1 : ℝ) ≤ ((addAll empty calls).totalDocuments : ℝ) / (postings.length : ℝ) := by
  have hle := length_postings_le calls w postings hp
  have hpos : 0 < postings.length := List.length_pos.mpr (postings_ne_nil_addAll calls w postings hp)
  rw [totalDocuments_eq_length]
  have hpos' : (0 : ℝ) < (postings.length : ℝ) := by exact_mod_cast hpos
  rw [one_le_div hpos']
  exact_mod_cast hle

theorem wordScores_nonneg (calls : List (Int × List Char)) (w : List Char) :
    ∀ p ∈ wordScores Real.log (addAll empty calls) w, (0 : ℝ) ≤ p.2 := by
  unfold wordScores
  cases hp : lookup w (addAll empty calls).index with
  | none => simp
  | some postings =>
    simp only
    apply forall_mem_foldl_assign (fun e : Int × Nat => e.1) _ (fun v : ℝ => 0 ≤ v)
    · simp
    · intro e _
      unfold tfidf
      apply mul_nonneg
      · exact div_nonneg (Nat.cast_nonneg _) (Nat.cast_nonneg _)
      · exact Real.log_nonneg (one_le_ratio calls w postings hp)

theorem intersectAdd_nonneg (c wr : List (Int × ℝ)) (hc : ∀ p ∈ c, (0 : ℝ) ≤ p.2)
    (hwr : ∀ p ∈ wr, (0 : ℝ) ≤ p.2) : ∀ p ∈ intersectAdd c wr, (0 : ℝ) ≤ p.2 := by
  intro p hp
  unfold intersectAdd at hp
  rw [List.mem_filterMap] at hp
  obtain ⟨e, he, hpe⟩ := hp
  cases hl : lookup e.1 wr with
  | none => simp [hl] at hpe
  | some s =>
    simp only [hl, Option.some.injEq] at hpe
    subst hpe
    exact add_nonneg (hc e he) (hwr _ (mem_of_lookup e.1 s wr hl))

theorem foldl_intersectAdd_nonneg {T : Type} (g : T → List (Int × ℝ)) (rest : List T)
    (c0 : List (Int × ℝ)) (hc : ∀ p ∈ c0, (0 : ℝ) ≤ p.2)
    (hg : ∀ t, ∀ p ∈ g t, (0 : ℝ) ≤ p.2) :
    ∀ p ∈ rest.foldl (fun c t => intersectAdd c (g t)) c0, (0 : ℝ) ≤ p.2 := by
  induction rest generalizing c0 with
  | nil => exact hc
  | cons t rest ih =>
    simp only [List.foldl_cons]
    exact ih _ (intersectAdd_nonneg c0 (g t) hc (hg t))

theorem foldl_addScore_nonneg (wr res : List (Int × ℝ)) (hres : ∀ p ∈ res, (0 : ℝ) ≤ p.2)
    (hwr : ∀ p ∈ wr, (0 : ℝ) ≤ p.2) : ∀ p ∈ wr.foldl addScore res, (0 : ℝ) ≤ p.2 := by
  induction wr generalizing res with
  | nil => exact hres
  | cons e rest ih =>
    simp only [List.foldl_cons]
    apply ih
    · rw [addScore_eq]
      apply forall_mem_assign (fun v : ℝ => 0 ≤ v) _ _ _ hres
      apply add_nonneg
      · cases hl : lookup e.1 res with
        | none => simp
        | some x => exact hres _ (mem_of_lookup e.1 x res hl)
      · exact hwr e (List.mem_cons_self _ _)
    · exact fun p hp => hwr p (List.mem_cons_of_mem _ hp)

theorem foldl_union_nonneg {T : Type} (g : T → List (Int × ℝ)) (ts : List T)
    (res0 : List (Int × ℝ)) (hres : ∀ p ∈ res0, (0 : ℝ) ≤ p.2)
    (hg : ∀ t, ∀ p ∈ g t, (0 : ℝ) ≤ p.2) :
    ∀ p ∈ ts.foldl (fun res t => (g t).foldl addScore res) res0, (0 : ℝ) ≤ p.2 := by
  induction ts generalizing res0 with
  | nil => exact hres
  | cons t rest ih =>
    simp only [List.foldl_cons]
    exact ih _ (foldl_addScore_nonneg (g t) res0 hres (hg t))

/-- C18. In every state reached by `addDocument` calls from the empty index, an indexed
word `w` has between 1 and `totalDocuments` distinct ids in `index[w]`, so the ratio
`totalDocuments / df` is at least 1 and the idf `ln(totalDocuments / df)` is non-negative;
and every score returned by `searchWord`, `searchPhrase` and `searchWithRanking` is
non-negative (over the reals). -/
theorem scores_nonneg (calls : List (Int × List Char)) :
    (∀ (w : List Char) (postings : List (Int × Nat)),
      lookup w (addAll empty calls).index = some postings →
        postings.length = (keys postings).toFinset.card ∧
        1 ≤ postings.length ∧
        postings.length ≤ (addAll empty calls).totalDocuments ∧
        (1 : ℝ) ≤ ((addAll empty calls).totalDocuments : ℝ) / (postings.length : ℝ) ∧
        0 ≤ Real.log (((addAll empty calls).totalDocuments : ℝ) / (postings.length : ℝ))) ∧
    (∀ w : List Char, ∀ p ∈ (searchWord Real.log (addAll empty calls) w).1, (0 : ℝ) ≤ p.2) ∧
    (∀ s : List Char, ∀ p ∈ (searchPhrase Real.log (addAll empty calls) s).1,
      (0 : ℝ) ≤ p.2) ∧
    (∀ s : List Char, ∀ p ∈ (searchWithRanking Real.log (addAll empty calls) s).1,
      (0 : ℝ) ≤ p.2) := by
  refine ⟨?_, ?_, ?_, ?_⟩
  · intro w postings hp
    have hratio := one_le_ratio calls w postings hp
    refine ⟨?_, ?_, ?_, hratio, Real.log_nonneg hratio⟩
    · rw [List.toFinset_card_of_nodup (keysNodup_addAll calls w postings hp)]
      simp [keys]
    · exact List.length_pos.mpr (postings_ne_nil_addAll calls w postings hp)
    · rw [totalDocuments_eq_length]
      exact length_postings_le calls w postings hp
  · intro w
    rw [searchWord_fst]
    exact wordScores_nonneg calls w
  · intro s
    cases hts : tokens s with
    | nil =>
      rw [searchPhrase_nil Real.log _ s hts]
      simp
    | cons t rest =>
      rw [searchPhrase_cons Real.log _ s t rest hts]
      exact foldl_intersectAdd_nonneg _ rest _ (wordScores_nonneg calls t)
        (fun t' => wordScores_nonneg calls t')
  · intro s
    rw [searchWithRanking_fst]
    exact foldl_union_nonneg _ _ [] (by simp) (fun t => wordScores_nonneg calls t)

/-- The statement C18 at the sample documents and the word "engine", whose entry in the
index is the map from 2 to 1 and from 3 to 1. -/
theorem scores_nonneg_witness :
    lookup "engine".toList (addAll empty sampleDocuments).index = some [(2, 1), (3, 1)] ∧
    (1 : ℝ) ≤ ((addAll empty sampleDocuments).totalDocuments : ℝ) /
      ((([(2, 1), (3, 1)] : List (Int × Nat)).length : Nat) : ℝ) :=
  ⟨by decide,
    ((scores_nonneg sampleDocuments).1 "engine".toList [(2, 1), (3, 1)] (by decide)).2.2.2.1⟩

end InvertedIndex
namespace InvertedIndex

theorem filter_eq_singleton_of_nodup (calls : List (Int × List Char))
    (hids : (calls.map Prod.fst).Nodup) (c : Int × List Char) (hc : c ∈ calls) :
    calls.filter (fun c' => c'.1 = c.1) = [c] := by
  induction calls with
  | nil => simp at hc
  | cons a rest ih =>
    simp only [List.map_cons, List.nodup_cons] at hids
    rw [List.mem_cons] at hc
    rcases hc with rfl | hc
    · have hnil : rest.filter (fun c' => c'.1 = c.1) = [] := by
        apply List.filter_eq_nil_iff.mpr
        intro x hx hxe
        simp only [decide_eq_true_eq] at hxe
        exact hids.1 (hxe ▸ List.mem_map_of_mem Prod.fst hx)
      simp [List.filter_cons, hnil]
    · have hne : ¬ a.1 = c.1 := by
        intro e
        exact hids.1 (e ▸ List.mem_map_of_mem Prod.fst hc)
      simp only [List.filter_cons, hne, decide_False]
      exact ih hids.2 hc

/-- C19. When every document id is named by at most one `addDocument` call, every entry
`index[w][d] = n` comes with an entry `documentLengths[d] = len` such that
`1 ≤ n ≤ len`; so the division in `searchWord` has a nonzero denominator and the term
frequency `n / len` lies in the interval `(0, 1]` (over the reals). -/
theorem termFrequency_bounds (calls : List (Int × List Char))
    (hids : (calls.map Prod.fst).Nodup) (w : List Char) (d : Int) (n : Nat)
    (h : stored (addAll empty calls).index w d = some n) :
    ∃ len : Nat, lookup d (addAll empty calls).documentLengths = some len ∧
      1 ≤ n ∧ n ≤ len ∧ (0 : ℝ) < (n : ℝ) / (len : ℝ) ∧ (n : ℝ) / (len : ℝ) ≤ 1 := by
  have hs : (stored (addAll empty calls).index w d).isSome = true := by simp [h]
  obtain ⟨c, hc, hcd, hw⟩ := (stored_isSome_iff calls w d).mp hs
  subst hcd
  have hf := filter_eq_singleton_of_nodup calls hids c hc
  have hocc : occurrences w c.1 calls = (tokens c.2).count w := by
    simp [occurrences, hf]
  have hlast : lastText c.1 calls = some c.2 := by
    simp [lastText, hf]
  have hn : n = (tokens c.2).count w := by
    have h1 := storedD_addAll calls w c.1
    rw [h, hocc] at h1
    simpa using h1
  have h1 : 1 ≤ n := by
    rw [hn]
    exact List.count_pos_iff.mpr hw
  have h2 : n ≤ (tokens c.2).length := by
    rw [hn]
    exact List.count_le_length _ _
  refine ⟨(tokens c.2).length, ?_, h1, h2, ?_, ?_⟩
  · rw [documentLengths_eq_lastText, hlast]
    rfl
  · have hn0 : (0 : ℝ) < (n : ℝ) := by exact_mod_cast h1
    have hl0 : (0 : ℝ) < ((tokens c.2).length : ℝ) := by
      have : 0 < (tokens c.2).length := by omega
      exact_mod_cast this
    exact div_pos hn0 hl0
  · have hl0 : (0 : ℝ) < ((tokens c.2).length : ℝ) := by
      have : 0 < (tokens c.2).length := by omega
      exact_mod_cast this
    rw [div_le_one hl0]
    exact_mod_cast h2

/-- The statement C19 at the sample documents, the word "engine" and document 2. -/
theorem termFrequency_bounds_witness :
    ∃ len : Nat, lookup 2 (addAll empty sampleDocuments).documentLengths = some len ∧
      1 ≤ 1 ∧ 1 ≤ len ∧ (0 : ℝ) < ((1 : Nat) : ℝ) / (len : ℝ) ∧
        ((1 : Nat) : ℝ) / (len : ℝ) ≤ 1 :=
  termFrequency_bounds sampleDocuments (by decide) "engine".toList 2 1 (by decide)

theorem filterMap_eq_map_getD {T : Type} (f : T → Option ℝ) (l : List T)
    (h : ∀ t ∈ l, (f t).isSome = true) :
    l.filterMap f = l.map (fun t => (f t).getD 0) := by
  induction l with
  | nil => rfl
  | cons t rest ih =>
    obtain ⟨x, hx⟩ := Option.isSome_iff_exists.mp (h t (List.mem_cons_self _ _))
    rw [List.filterMap_cons, hx, List.map_cons, hx,
      ih (fun t' ht' => h t' (List.mem_cons_of_mem _ ht'))]
    rfl

/-- C20. For every index state and every text `s`, every id that `searchPhrase(s)` returns
is also returned by `searchWithRanking(s)`, and with the same score (over the reals). -/
theorem searchPhrase_subset_searchWithRanking (idx : InvertedIndex) (s : List Char) (d : Int)
    (hd : d ∈ keys (searchPhrase Real.log idx s).1) :
    d ∈ keys (searchWithRanking Real.log idx s).1 ∧
    ∃ score : ℝ, lookup d (searchPhrase Real.log idx s).1 = some score ∧
      lookup d (searchWithRanking Real.log idx s).1 = some score := by
  cases hts : tokens s with
  | nil =>
    rw [searchPhrase_nil Real.log idx s hts] at hd
    simp [keys] at hd
  | cons t rest =>
    rw [searchPhrase_cons Real.log idx s t rest hts, mem_keys_foldl_intersectAdd] at hd
    obtain ⟨ht, hrest⟩ := hd
    have hall : ∀ t' ∈ t :: rest, d ∈ keys (wordScores Real.log idx t') := by
      intro t' ht'
      rw [List.mem_cons] at ht'
      rcases ht' with rfl | ht'
      · exact ht
      · exact hrest t' ht'
    have hmem : d ∈ keys (searchWithRanking Real.log idx s).1 := by
      rw [searchWithRanking_fst, mem_keys_foldl_union, hts]
      exact Or.inr ⟨t, List.mem_cons_self _ _, ht⟩
    refine ⟨hmem, ?_⟩
    obtain ⟨a, ha⟩ := Option.isSome_iff_exists.mp ((lookup_isSome_iff d _).mpr ht)
    obtain ⟨x, hx⟩ := Option.isSome_iff_exists.mp ((lookup_isSome_iff d _).mpr hmem)
    have hphrase := lookup_foldl_intersectAdd (fun t' => wordScores Real.log idx t') rest
      (wordScores Real.log idx t) d a ha hrest
    have hrank := lookup_foldl_union (fun t' => wordScores Real.log idx t') (t :: rest) [] d
      (fun t' _ => nodup_keys_wordScores Real.log idx t')
    rw [← hts, ← searchWithRanking_fst, hx, hts,
      filterMap_eq_map_getD _ (t :: rest)
        (fun t' ht' => (lookup_isSome_iff d _).mpr (hall t' ht'))] at hrank
    simp only [Option.getD_some, lookup, Option.getD_none, zero_add, List.map_cons,
      List.sum_cons, ha] at hrank
    refine ⟨x, ?_, hx⟩
    rw [searchPhrase_cons Real.log idx s t rest hts, hphrase, hrank]

/-- The statement C20 at the sample documents, the text "search engine" and document 2. -/
theorem searchPhrase_subset_searchWithRanking_witness :
    (2 : Int) ∈
      keys (searchWithRanking Real.log (addAll empty sampleDocuments) "search engine".toList).1 ∧
    ∃ score : ℝ,
      lookup 2 (searchPhrase Real.log (addAll empty sampleDocuments)
        "search engine".toList).1 = some score ∧
      lookup 2 (searchWithRanking Real.log (addAll empty sampleDocuments)
        "search engine".toList).1 = some score :=
  searchPhrase_subset_searchWithRanking (addAll empty sampleDocuments) "search engine".toList 2
    (by decide)

end InvertedIndex
end CustomSearchEngine
